import Mathlib

/-!
# Verification of the `sak_rs` fixed-capacity containers

Shallow embedding of the `InplaceVec`, `InplaceDeque` and `InplaceHeap`
containers from `src/collections/inplace/` and proofs about their claimed
properties.

Modelling conventions:
* A bounded vector `InplaceVec<T, N>` with live range `[0, len)` is modelled as
  the `List α` of its live elements; the capacity `N` is passed explicitly to
  the operations that check it.
* The ring deque `InplaceDeque<T, N>` is modelled physically: a `List α` of
  length `N` standing for the storage array (`MaybeUninit` slots keep stale
  values, which is how the machine behaves), plus `head` and `len` fields.
* Machine `usize` arithmetic is modelled by `Nat`; Rust's
  `saturating_sub`/`wrapping_sub`-on-nonnegative results coincide with
  truncated `Nat` subtraction at the places they are used.
* `unsafe { buf.get_unchecked(i) }` on an initialized slot is modelled by
  `List.getD i default`; all theorems only depend on in-bounds accesses.
-/

namespace SakRs

variable {α : Type} [Inhabited α]

/-- `ptr::copy(src, dst, len)` (memmove semantics: all reads happen
conceptually before all writes) on a list viewed as a buffer. -/
def listCopy (l : List α) (src dst len : ℕ) : List α :=
  List.ofFn fun p : Fin l.length =>
    if dst ≤ p.val ∧ p.val < dst + len then l.getD (src + (p.val - dst)) default
    else l.getD p.val default

end SakRs

namespace InplaceVec

variable {α : Type} [Inhabited α]

/-- `InplaceVec::remove` (src/collections/inplace/vec.rs:82-94).  Bounds-checks
the index, reads out the removed value, then shifts the tail down one slot via
`ptr::copy(remove_place_ptr.add(1), remove_place_ptr, len - index - 1)`.
Note: the source never decrements `self.len`, so the resulting live region
still has the original length and its last slot holds a stale duplicate of the
previous last element. -/
def remove (l : List α) (index : ℕ) : Except String (α × List α) :=
  if index ≥ l.length then .error "removal index out of bounds"
  else .ok (l.getD index default, SakRs.listCopy l (index + 1) index (l.length - index - 1))

/-- `InplaceVec::truncate` (src/collections/inplace/vec.rs:26-34).  Returns
`(live elements after the call, elements destroyed by the call)`.  The source
computes `len_to_drop = self.len - len` and then drops the slice
`self.buf[len..len_to_drop]` — the range is `len..(self.len - len)`, not
`len..self.len`; when `len > self.len - len` that range is reversed, which we
model as destroying nothing (in the source it is `get_unchecked_mut` on a
reversed range). -/
def truncate (l : List α) (len : ℕ) : List α × List α :=
  if len > l.length then (l, [])
  else
    let len_to_drop := l.length - len
    (l.take len, (l.drop len).take (len_to_drop - len))

/-- The safety precondition documented on `InplaceVec::set_len`
(src/collections/inplace/vec.rs:412-417): "`new_len` must be less than or
equal to `capacity()`". -/
def set_len_doc_precondition (cap new_len : ℕ) : Prop := new_len ≤ cap

/-- The `debug_assert!(new_len < self.capacity())` actually executed by
`InplaceVec::set_len` (src/collections/inplace/vec.rs:420). -/
def set_len_debug_assert (cap new_len : ℕ) : Bool := decide (new_len < cap)

/-- `InplaceVec::push` (src/collections/inplace/vec.rs:347-354): the rejected
value is handed back when the vector is full. -/
def push (cap : ℕ) (l : List α) (value : α) : Except α (List α) :=
  if l.length = cap then .error value else .ok (l ++ [value])

/-- `InplaceVec::pop` (src/collections/inplace/vec.rs:357-364). -/
def pop (l : List α) : Option (α × List α) :=
  if l.isEmpty then none
  else some (l.getD (l.length - 1) default, l.dropLast)

/-- `InplaceVec::append` (src/collections/inplace/vec.rs:372-388): capacity is
checked up front; on success all of `other`'s elements are bulk-moved onto the
end of `self` and `other` is emptied.  Returns
`(outcome, new self, new other)`. -/
def append (cap : ℕ) (self other : List α) :
    Except String Unit × List α × List α :=
  if other.length > cap - self.length then (.error "capacity exceeded", self, other)
  else (.ok (), self ++ other, [])

/-- Result of an instrumented `retain_mut`/`dedup_by` run: the live elements
left in the vector, the elements whose destructor ran (in order, each exactly
once), and whether a callback failed abruptly. -/
structure RetainResult (α : Type) where
  result : List α
  destroyed : List α
  failed : Bool
deriving DecidableEq

/-- The scan loop of `InplaceVec::retain_mut` (vec.rs:162-204) instrumented
for abrupt callback failure.  `f x = none` models the predicate panicking at
`x` (the element is untouched and is part of the tail the `BackshiftOnDrop`
guard shifts over the holes); `some true`/`some false` keep/delete;
`dropFails x = true` models `x`'s own teardown panicking after the loop has
already advanced `processed_len` and `deleted_cnt` past it (so `x` counts as
destroyed and the guard shifts the remaining tail).  `kept` is the prefix of
retained elements (`processed_len - deleted_cnt` slots), `destroyed` the
destructed elements; the stage-1/stage-2 split of the source decides only
whether a physical copy into a hole happens, not the resulting contents. -/
def retainLoop (f : α → Option Bool) (dropFails : α → Bool) :
    List α → List α → List α → RetainResult α
  | [], kept, destroyed => ⟨kept, destroyed, false⟩
  | x :: rest, kept, destroyed =>
    match f x with
    | none => ⟨kept ++ x :: rest, destroyed, true⟩
    | some true => retainLoop f dropFails rest (kept ++ [x]) destroyed
    | some false =>
      if dropFails x then ⟨kept ++ rest, destroyed ++ [x], true⟩
      else retainLoop f dropFails rest kept (destroyed ++ [x])

/-- `InplaceVec::retain_mut` (vec.rs:103-205), instrumented. -/
def retain_mut (l : List α) (f : α → Option Bool) (dropFails : α → Bool) :
    RetainResult α :=
  retainLoop f dropFails l [] []

/-- The initial duplicate scan of `InplaceVec::dedup_by` (vec.rs:227-247):
walk `first_duplicate_idx` from 1, calling `same_bucket(&mut current, &mut
prev)`; `none` models a panic inside `same_bucket` (nothing has been moved or
destroyed yet, so the vector is left intact). -/
def dedupScan (sb : α → α → Option Bool) (l : List α) (i : ℕ) : Option (Option ℕ) :=
  if h : i < l.length then
    match sb (l.getD i default) (l.getD (i - 1) default) with
    | none => none
    | some true => some (some i)
    | some false => dedupScan sb l (i + 1)
  else some none
termination_by l.length - i

/-- The main loop of `InplaceVec::dedup_by` (vec.rs:312-343) instrumented:
`kept` is `buf[0..write)` (nonempty: it ends with the last kept element, the
`prev` of the comparison), the list argument is `buf[read..len)`.  On a panic
inside `same_bucket` the `FillGapOnDrop` guard copies `vec[read..]` over the
gap (the current element was not destroyed); on a panicking duplicate
teardown `gap.read` was already advanced, so the element counts as destroyed
and the rest is shifted. -/
def dedupLoop (sb : α → α → Option Bool) (dropFails : α → Bool) :
    List α → List α → List α → RetainResult α
  | [], kept, destroyed => ⟨kept, destroyed, false⟩
  | x :: rest, kept, destroyed =>
    match sb x (kept.getD (kept.length - 1) default) with
    | none => ⟨kept ++ x :: rest, destroyed, true⟩
    | some true =>
      if dropFails x then ⟨kept ++ rest, destroyed ++ [x], true⟩
      else dedupLoop sb dropFails rest kept (destroyed ++ [x])
    | some false => dedupLoop sb dropFails rest (kept ++ [x]) destroyed

/-- `InplaceVec::dedup_by` (vec.rs:215-344), instrumented.  The constructed
gap starts at `read = first_duplicate_idx + 1`, `write = first_duplicate_idx`,
and the element at `first_duplicate_idx` is destroyed first (if its teardown
fails abruptly the guard closes the one-slot gap). -/
def dedup_by (l : List α) (sb : α → α → Option Bool) (dropFails : α → Bool) :
    RetainResult α :=
  if l.length ≤ 1 then ⟨l, [], false⟩
  else
    match dedupScan sb l 1 with
    | none => ⟨l, [], true⟩
    | some none => ⟨l, [], false⟩
    | some (some fdi) =>
      if dropFails (l.getD fdi default) then
        ⟨l.take fdi ++ l.drop (fdi + 1), [l.getD fdi default], true⟩
      else
        dedupLoop sb dropFails (l.drop (fdi + 1)) (l.take fdi) [l.getD fdi default]

end InplaceVec

namespace InplaceHeap

variable {α : Type} [Inhabited α] [LinearOrder α]

/-- Modelled from the spec: the "hole" helper.  `src/collections/inplace/heap/mod.rs`
declares `mod hole;` but `hole.rs` is not among the sources.  Per §4.3 and the
glossary of the spec, a hole conceptually lifts the element at a position out
of storage ("an algorithmic stand-in for a storage slot whose prior value has
been logically lifted out pending a final placement decision"), compares
candidates against that removed value without writing it back on every step,
moves candidate values into the hole one at a time, and performs exactly one
final write when the resting position is found.  The slot at `pos` physically
keeps its stale bits; `fill` (the hole's `Drop`) writes `elt` back at `pos`. -/
structure Hole (α : Type) where
  data : List α
  elt : α
  pos : ℕ

/-- Modelled from the spec: create a hole at `pos`, lifting out the element. -/
def Hole.new (data : List α) (pos : ℕ) : Hole α :=
  ⟨data, data.getD pos default, pos⟩

/-- Modelled from the spec: read the element at index `i` (which must differ
from the hole's position). -/
def Hole.get (h : Hole α) (i : ℕ) : α := h.data.getD i default

/-- Modelled from the spec: move the element at `i` into the hole; the hole
moves to position `i`. -/
def Hole.moveTo (h : Hole α) (i : ℕ) : Hole α :=
  ⟨h.data.set h.pos (h.data.getD i default), h.elt, i⟩

/-- Modelled from the spec: the hole's teardown writes the lifted element into
the current hole position (the single final write). -/
def Hole.fill (h : Hole α) : List α := h.data.set h.pos h.elt

/-- The loop of `InplaceHeap::sift_up` (heap/mod.rs:196-217): while the hole
is above `start`, compare the lifted element with the parent
`(hole.pos() - 1) / 2` and move the parent down into the hole when it is
smaller. -/
def siftUpLoop (start : ℕ) (h : Hole α) : Hole α :=
  if hp : start < h.pos then
    if h.elt ≤ h.get ((h.pos - 1) / 2) then h
    else siftUpLoop start (h.moveTo ((h.pos - 1) / 2))
  else h
termination_by h.pos
decreasing_by simp [Hole.moveTo]; omega

/-- `InplaceHeap::sift_up` (heap/mod.rs:196-217).  Returns the data after the
hole is dropped together with the new position of the element. -/
def sift_up (data : List α) (start pos : ℕ) : List α × ℕ :=
  let h := siftUpLoop start (Hole.new data pos)
  (h.fill, h.pos)

/-- `child += unsafe { hole.get(child) <= hole.get(child + 1) } as usize`
(heap/mod.rs:241 and heap/mod.rs:301): the index of the greater of the two
children of the hole. -/
def Hole.maxChild (h : Hole α) : ℕ :=
  2 * h.pos + 1 + (if h.get (2 * h.pos + 1) ≤ h.get (2 * h.pos + 2) then 1 else 0)

/-- The loop of `InplaceHeap::sift_down_range` (heap/mod.rs:227-253).  The
boolean records whether the loop was left through the in-order early `return`
(in which case the trailing single-child check of the source is skipped). -/
def siftDownLoop (en : ℕ) (h : Hole α) : Hole α × Bool :=
  if hc : 2 * h.pos + 1 ≤ en - 2 then
    if h.get h.maxChild ≤ h.elt then (h, true)
    else siftDownLoop en (h.moveTo h.maxChild)
  else (h, false)
termination_by en - h.pos
decreasing_by simp [Hole.moveTo, Hole.maxChild]; split <;> omega

/-- `InplaceHeap::sift_down_range` (heap/mod.rs:227-264): take the element at
`pos` and move it down the heap while its children are larger, restricted to
indices below `en`. -/
def sift_down_range (data : List α) (pos en : ℕ) : List α :=
  let r := siftDownLoop en (Hole.new data pos)
  if r.2 then r.1.fill
  else
    if 2 * r.1.pos + 1 = en - 1 ∧ r.1.elt < r.1.get (2 * r.1.pos + 1) then
      (r.1.moveTo (2 * r.1.pos + 1)).fill
    else r.1.fill

/-- `InplaceHeap::sift_down` (heap/mod.rs:269-274). -/
def sift_down (data : List α) (pos : ℕ) : List α :=
  sift_down_range data pos data.length

/-- The descent loop of `InplaceHeap::sift_down_to_bottom`
(heap/mod.rs:285-306): move the greater child up into the hole all the way
down, without comparing against the lifted element. -/
def siftDownBottomLoop (en : ℕ) (h : Hole α) : Hole α :=
  if hc : 2 * h.pos + 1 ≤ en - 2 then
    siftDownBottomLoop en (h.moveTo h.maxChild)
  else h
termination_by en - h.pos
decreasing_by simp [Hole.moveTo, Hole.maxChild]; split <;> omega

/-- `InplaceHeap::sift_down_to_bottom` (heap/mod.rs:285-319): descend the hole
to a leaf along the greater-child path, then sift the lifted element back up
from there. -/
def sift_down_to_bottom (data : List α) (pos : ℕ) : List α :=
  let en := data.length
  let h := siftDownBottomLoop en (Hole.new data pos)
  let h2 := if 2 * h.pos + 1 = en - 1 then h.moveTo (2 * h.pos + 1) else h
  (sift_up h2.fill pos h2.pos).1

/-- The loop of `InplaceHeap::rebuild` (heap/mod.rs:358-367): descend-sift
every internal node from the middle down to the root. -/
def rebuildLoop (data : List α) : ℕ → List α
  | 0 => data
  | n + 1 => rebuildLoop (sift_down data n) n

/-- `InplaceHeap::rebuild` (heap/mod.rs:358-367). -/
def rebuild (data : List α) : List α := rebuildLoop data (data.length / 2)

/-- `log2_fast` (heap/mod.rs:330-332): `usize::BITS - x.leading_zeros() - 1`,
i.e. the floor of the base-2 logarithm (callers ensure `x ≥ 1`). -/
def log2_fast (x : ℕ) : ℕ := Nat.log2 x

/-- The ascend-sift branch of `InplaceHeap::rebuild_tail`
(heap/mod.rs:350-355): `for i in start..len { sift_up(0, i) }`. -/
def siftUpRange (data : List α) (i en : ℕ) : List α :=
  if i < en then siftUpRange (sift_up data 0 i).1 (i + 1) en else data
termination_by en - i

/-- `InplaceHeap::rebuild_tail` (heap/mod.rs:322-356): repair the heap
assuming `data[0..start]` is still a proper heap, choosing between a full
rebuild and repeated ascend-sifts of the tail via the empirically tuned
crossover. -/
def rebuild_tail (data : List α) (start : ℕ) : List α :=
  if start = data.length then data
  else
    let tail_len := data.length - start
    let better_to_rebuild : Bool :=
      if start < tail_len then true
      else if data.length ≤ 2048 then decide (2 * data.length < tail_len * log2_fast start)
      else decide (2 * data.length < tail_len * 11)
    if better_to_rebuild then rebuild data
    else siftUpRange data start data.length

/-- `InplaceHeap::push` (heap/mod.rs:81-88): delegate to the vector's `push`
(which hands the value back when full), then sift the new element up. -/
def push (cap : ℕ) (data : List α) (item : α) : Except α (List α) :=
  match InplaceVec.push cap data item with
  | .error v => .error v
  | .ok l => .ok (sift_up l 0 (l.length - 1)).1

/-- `InplaceHeap::pop` (heap/mod.rs:70-79): pop the last element, swap it with
the root, and sift the new root down to the bottom. -/
def pop (data : List α) : Option (α × List α) :=
  match InplaceVec.pop data with
  | none => none
  | some (item, rest) =>
    if rest.isEmpty then some (item, rest)
    else some (rest.getD 0 default, sift_down_to_bottom (rest.set 0 item) 0)

/-- `InplaceHeap::peek` (heap/mod.rs:150-152): `self.data.first()`. -/
def peek (data : List α) : Option α := data.head?

/-- `InplaceHeap::append` (heap/mod.rs:110-118): swap so that the smaller heap
is merged into the larger one, delegate to the vector's capacity-checked
`append`, then repair only the appended suffix.  Note that the role swap
happens before the capacity check inside `InplaceVec::append`.  Returns
`(outcome, new self, new other)`. -/
def append (cap : ℕ) (self other : List α) :
    Except String Unit × List α × List α :=
  let p := if self.length < other.length then (other, self) else (self, other)
  let start := p.1.length
  match InplaceVec.append cap p.1 p.2 with
  | (.error e, s, o) => (.error e, s, o)
  | (.ok _, s, o) => (.ok (), rebuild_tail s start, o)

/-- `InplaceHeap::retain` (heap/mod.rs:120-140) with a pure (non-panicking)
predicate: delegates to `InplaceVec::retain`, whose effect with a pure
predicate is `List.filter`, while the closure records in
`guard.rebuild_from` the first index whose element is removed — which is the
length of the longest all-kept prefix, `(data.takeWhile f).length` (equal to
the initial `self.len()` when nothing is removed, in which case
`rebuild_tail` is a no-op).  The `RebuildOnDrop` guard then repairs the tail
from that index. -/
def retain (data : List α) (f : α → Bool) : List α :=
  rebuild_tail (data.filter f) (data.takeWhile f).length

/-- Repeatedly `pop` until empty, collecting the returned elements; the
recursion is fuelled by the length, which `pop` decreases by one. -/
def popAllFuel : ℕ → List α → List α
  | 0, _ => []
  | fuel + 1, data =>
    match pop data with
    | none => []
    | some (v, rest) => v :: popAllFuel fuel rest

/-- Draining a heap via repeated `pop()`. -/
def popAll (data : List α) : List α := popAllFuel data.length data

/-- `PeekMut::deref_mut` (heap/peek_mut.rs:48-74): the first mutable access
records the original length (when the heap has more than one element) and
shrinks the visible length to 1. -/
def peekMutDerefMutOriginalLen (data : List α) : Option ℕ :=
  if data.length > 1 then some data.length else none

/-- The effect of mutating the root through the peek guard (storing the new
root value `e`) and then releasing the guard (`impl Drop for PeekMut`,
heap/peek_mut.rs:22-36): the original length is restored via `set_len` and the
root is sifted down.  When the heap has a single element `deref_mut` never
shrinks the length and the drop is a no-op. -/
def peekMutRelease (data : List α) (e : α) : List α :=
  if (data.set 0 e).length > 1 then sift_down (data.set 0 e) 0 else data.set 0 e

/-- The heap invariant exactly as the claim states it: for every index `i` of
the underlying storage with length `len`, if `2i+1 < len` then element `i` is
not less than element `2i+1`, and if `2i+2 < len` then element `i` is not less
than element `2i+2`. -/
def IsHeap (l : List α) : Prop :=
  ∀ i < l.length,
    (2 * i + 1 < l.length → l.getD (2 * i + 1) default ≤ l.getD i default) ∧
    (2 * i + 2 < l.length → l.getD (2 * i + 2) default ≤ l.getD i default)

instance (l : List α) : Decidable (IsHeap l) := by
  unfold IsHeap; infer_instance

/-- Child-centric form of the heap invariant, restricted to child indices
`≤ B`: every in-range child `c ≤ B` is at most its parent `(c - 1) / 2`. -/
def HeapUpTo (l : List α) (B : ℕ) : Prop :=
  ∀ c, 0 < c → c < l.length → c ≤ B →
    l.getD c default ≤ l.getD ((c - 1) / 2) default

/-- Invariant maintained by the `sift_up` loop (with `start = 0`): the value
lifted out of the initial position travels upward through a hole at `h.pos`;
all parent/child pairs with child index `≤ B` and child `≠ h.pos` are ordered,
children of the hole are bounded by the lifted element and (through the stale
value still stored in the hole's slot) by the hole's parent, and filling the
hole yields a permutation of `orig`. -/
structure SUInv (n B : ℕ) (orig : List α) (h : Hole α) : Prop where
  hlen : h.data.length = n
  hpos : h.pos < n
  hposB : h.pos ≤ B
  pairs : ∀ c, 0 < c → c < n → c ≤ B → c ≠ h.pos →
    h.data.getD c default ≤ h.data.getD ((c - 1) / 2) default
  holeChildren : ∀ c, 0 < c → c < n → c ≤ B → (c - 1) / 2 = h.pos →
    h.data.getD c default ≤ h.elt
  holePair : ∀ c, 0 < c → c < n → c ≤ B → (c - 1) / 2 = h.pos → 0 < h.pos →
    h.data.getD h.pos default ≤ h.data.getD ((h.pos - 1) / 2) default
  hperm : (h.data.set h.pos h.elt).Perm orig

/-- The parent/child pairs whose parent index is at least `p` are all
ordered. -/
def HeapFrom (l : List α) (p : ℕ) : Prop :=
  ∀ c, 0 < c → c < l.length → p ≤ (c - 1) / 2 →
    l.getD c default ≤ l.getD ((c - 1) / 2) default

/-- Invariant maintained by the `sift_down_range` loop (with `en = n`, the
length, which covers every call made by the public operations).  The hole
descends from `p`; every pair with parent index `≥ p` not involving the hole
is ordered, the children of the hole are bounded by the value stored at the
hole's parent (the value that was moved up into it), and the lifted element is
smaller than that value. -/
structure SDInv (n p : ℕ) (orig : List α) (h : Hole α) : Prop where
  hlen : h.data.length = n
  hpos : h.pos < n
  hposP : p ≤ h.pos
  pairs : ∀ c, 0 < c → c < n → p ≤ (c - 1) / 2 → (c - 1) / 2 ≠ h.pos → c ≠ h.pos →
    h.data.getD c default ≤ h.data.getD ((c - 1) / 2) default
  holeChildren : p < h.pos → ∀ c, c < n → (c - 1) / 2 = h.pos →
    h.data.getD c default ≤ h.data.getD ((h.pos - 1) / 2) default
  holeElt : p < h.pos → h.elt < h.data.getD ((h.pos - 1) / 2) default
  hperm : (h.data.set h.pos h.elt).Perm orig

/-- Invariant maintained by the descent loop of `sift_down_to_bottom` (from
position 0): every pair not involving the hole is ordered and the children of
the hole are bounded by the value at the hole's parent. -/
structure SDBInv (n : ℕ) (orig : List α) (h : Hole α) : Prop where
  hlen : h.data.length = n
  hpos : h.pos < n
  pairs : ∀ c, 0 < c → c < n → (c - 1) / 2 ≠ h.pos → c ≠ h.pos →
    h.data.getD c default ≤ h.data.getD ((c - 1) / 2) default
  holeChildren : 0 < h.pos → ∀ c, c < n → (c - 1) / 2 = h.pos →
    h.data.getD c default ≤ h.data.getD ((h.pos - 1) / 2) default
  hperm : (h.data.set h.pos h.elt).Perm orig

end InplaceHeap

/-- `InplaceDeque<T, N>` (deque/mod.rs:21-25) modelled physically: `buf` is
the fixed storage array of length `N` (a `MaybeUninit` slot keeps its stale
bits, which we model by keeping the old value), `head` is the physical slot of
the first logical element and `len` the number of live elements. -/
structure InplaceDeque (α : Type) where
  buf : List α
  head : ℕ
  len : ℕ
deriving DecidableEq

namespace InplaceDeque

variable {α : Type} [Inhabited α]

/-- `usize::is_power_of_two` (used by `wrap_index`). -/
def isPow2 (n : ℕ) : Bool := decide (∃ k < n + 1, n = 2 ^ k)

/-- `wrap_index` (deque/mod.rs:1266-1281): mask when the capacity is a power
of two, otherwise a single conditional subtraction (callers guarantee
`logical_index < 2 * CAPACITY`). -/
def wrap_index (cap : ℕ) (logical_index : ℕ) : ℕ :=
  if isPow2 cap then logical_index &&& (cap - 1)
  else if logical_index ≥ cap then logical_index - cap
  else logical_index

/-- `capacity()` = `N`. -/
def capacity (d : InplaceDeque α) : ℕ := d.buf.length

/-- `wrap_add` (deque/mod.rs:763-766). -/
def wrap_add (d : InplaceDeque α) (index addend : ℕ) : ℕ :=
  wrap_index d.capacity (index + addend)

/-- `wrap_sub` (deque/mod.rs:768-771).  On `usize` the source computes
`index.wrapping_sub(subtrahend).wrapping_add(capacity)`; for the in-contract
uses (`subtrahend ≤ capacity`) this equals `index + capacity - subtrahend`
with no wrapping. -/
def wrap_sub (d : InplaceDeque α) (index subtrahend : ℕ) : ℕ :=
  wrap_index d.capacity (index + d.capacity - subtrahend)

/-- `to_physical_index` (deque/mod.rs:758-761). -/
def to_physical_index (d : InplaceDeque α) (index : ℕ) : ℕ :=
  d.wrap_add d.head index

/-- The ring invariant: `head` is in range (or 0 for capacity 0) and `len`
never exceeds the capacity. -/
def WF (d : InplaceDeque α) : Prop :=
  (d.head < d.capacity ∨ (d.capacity = 0 ∧ d.head = 0)) ∧ d.len ≤ d.capacity

/-- The logical sequence stored by the deque: logical index `i` lives in
physical slot `(head + i) mod N`. -/
def toList (d : InplaceDeque α) : List α :=
  (List.range d.len).map fun i => d.buf.getD ((d.head + i) % d.capacity) default

/-- `push_back` (deque/mod.rs:320-328). -/
def push_back (d : InplaceDeque α) (value : α) : Except α (InplaceDeque α) :=
  if d.len = d.capacity then .error value
  else .ok { d with buf := d.buf.set (d.to_physical_index d.len) value, len := d.len + 1 }

/-- `pop_front` (deque/mod.rs:267-278). -/
def pop_front (d : InplaceDeque α) : Option (α × InplaceDeque α) :=
  if d.len = 0 then none
  else some (d.buf.getD d.head default,
    { d with head := d.to_physical_index 1, len := d.len - 1 })

/-- `push_front` (deque/mod.rs:310-318). -/
def push_front (d : InplaceDeque α) (value : α) : Except α (InplaceDeque α) :=
  if d.len = d.capacity then .error value
  else
    let h2 := d.wrap_sub d.head 1
    .ok { d with buf := d.buf.set h2 value, head := h2, len := d.len + 1 }

/-- `pop_back` (deque/mod.rs:280-290). -/
def pop_back (d : InplaceDeque α) : Option (α × InplaceDeque α) :=
  if d.len = 0 then none
  else some (d.buf.getD (d.to_physical_index (d.len - 1)) default,
    { d with len := d.len - 1 })

/-- `copy` (deque/mod.rs:837-856): `ptr::copy` (memmove) of a linear block
inside the buffer. -/
def copy (d : InplaceDeque α) (src dst len : ℕ) : InplaceDeque α :=
  { d with buf := SakRs.listCopy d.buf src dst len }

/-- `copy_nonoverlapping` (deque/mod.rs:860-879): for non-overlapping ranges
`ptr::copy_nonoverlapping` has the same effect as `ptr::copy`, which is what
the model records. -/
def copy_nonoverlapping (d : InplaceDeque α) (src dst len : ℕ) : InplaceDeque α :=
  d.copy src dst len

/-- `wrap_copy` (deque/mod.rs:884-1013): copy a potentially wrapping block of
`len` slots from physical `src` to physical `dst`, by the three-boolean case
table (does the destination trail the source across the wrap point, does the
source run wrap, does the destination run wrap), each case realized as at most
three linear copies.  (The `size_of::<T>() == 0` early exit is not modelled:
the element type is not a ZST.) -/
def wrap_copy (d : InplaceDeque α) (src dst len : ℕ) : InplaceDeque α :=
  if src = dst ∨ len = 0 then d
  else
    let dst_after_src : Bool := decide (d.wrap_sub dst src < len)
    let src_pre_wrap_len := d.capacity - src
    let dst_pre_wrap_len := d.capacity - dst
    let src_wraps : Bool := decide (src_pre_wrap_len < len)
    let dst_wraps : Bool := decide (dst_pre_wrap_len < len)
    match dst_after_src, src_wraps, dst_wraps with
    | _, false, false => d.copy src dst len
    | false, false, true =>
      (d.copy src dst dst_pre_wrap_len).copy
        (src + dst_pre_wrap_len) 0 (len - dst_pre_wrap_len)
    | true, false, true =>
      (d.copy (src + dst_pre_wrap_len) 0 (len - dst_pre_wrap_len)).copy
        src dst dst_pre_wrap_len
    | false, true, false =>
      (d.copy src dst src_pre_wrap_len).copy
        0 (dst + src_pre_wrap_len) (len - src_pre_wrap_len)
    | true, true, false =>
      (d.copy 0 (dst + src_pre_wrap_len) (len - src_pre_wrap_len)).copy
        src dst src_pre_wrap_len
    | false, true, true =>
      ((d.copy src dst src_pre_wrap_len).copy
          0 (dst + src_pre_wrap_len) (dst_pre_wrap_len - src_pre_wrap_len)).copy
        (dst_pre_wrap_len - src_pre_wrap_len) 0 (len - dst_pre_wrap_len)
    | true, true, true =>
      ((d.copy 0 (src_pre_wrap_len - dst_pre_wrap_len) (len - src_pre_wrap_len)).copy
          (d.capacity - (src_pre_wrap_len - dst_pre_wrap_len)) 0
          (src_pre_wrap_len - dst_pre_wrap_len)).copy
        src dst dst_pre_wrap_len

/-- `slice_ranges` (deque/mod.rs:779-808) after `crate::slice::range` has
validated `start ≤ endIdx ≤ len`: the one or two physical ranges (as
`(start, end)` pairs) backing the logical range. -/
def slice_ranges (d : InplaceDeque α) (start endIdx : ℕ) : (ℕ × ℕ) × (ℕ × ℕ) :=
  let len := endIdx - start
  if len = 0 then ((0, 0), (0, 0))
  else
    let wrapped_start := d.to_physical_index start
    let head_len := d.capacity - wrapped_start
    if head_len ≥ len then ((wrapped_start, wrapped_start + len), (0, 0))
    else ((wrapped_start, d.capacity), (0, len - head_len))

/-- `buffer_range` (deque/mod.rs:774-777) as the list of elements of the
physical range. -/
def bufferRange (d : InplaceDeque α) (r : ℕ × ℕ) : List α :=
  (d.buf.drop r.1).take (r.2 - r.1)

/-- `as_slices` (deque/mod.rs:143-148). -/
def as_slices (d : InplaceDeque α) : List α × List α :=
  (d.bufferRange (d.slice_ranges 0 d.len).1, d.bufferRange (d.slice_ranges 0 d.len).2)

/-- `remove` (deque/mod.rs:391-414).  Note that the source sets
`front_len = self.len` (not `index`), so the `back_len < front_len` branch —
which shifts the elements after `index` and keeps `head` — is always taken. -/
def remove (d : InplaceDeque α) (index : ℕ) : Option (α × InplaceDeque α) :=
  if index ≥ d.len then none
  else
    let wrapped_index := d.to_physical_index index
    let value := d.buf.getD wrapped_index default
    let front_len := d.len
    let back_len := d.len - index - 1
    if back_len < front_len then
      let d2 := d.wrap_copy (d.wrap_add wrapped_index 1) wrapped_index back_len
      some (value, { d2 with len := d2.len - 1 })
    else
      let d2 := { d with head := d.to_physical_index 1 }
      let d3 := d2.wrap_copy d.head d2.head index
      some (value, { d3 with len := d3.len - 1 })

/-- `slice::rotate_left(k)` on a list (`k ≤ length`). -/
def rotLeft (l : List α) (k : ℕ) : List α := l.drop k ++ l.take k

/-- `slice::rotate_right(k)` on a list (`k ≤ length`). -/
def rotRight (l : List α) (k : ℕ) : List α :=
  l.drop (l.length - k) ++ l.take (l.length - k)

/-- `make_contiguous` (deque/mod.rs:486-608), non-ZST case: if the deque is
already contiguous (`is_contiguous`, deque/mod.rs:811-813) nothing happens;
otherwise one of the three strategies runs depending on the free space. -/
def make_contiguous (d : InplaceDeque α) : InplaceDeque α :=
  if d.head ≤ d.capacity - d.len then d
  else
    let free := d.capacity - d.len
    let head_len := d.capacity - d.head
    let tail := d.len - head_len
    let tail_len := tail
    if free ≥ head_len then
      let d2 := (d.copy 0 head_len tail_len).copy_nonoverlapping d.head 0 head_len
      { d2 with head := 0 }
    else if free ≥ tail_len then
      let d2 := (d.copy d.head tail head_len).copy_nonoverlapping 0 (tail + head_len) tail_len
      { d2 with head := tail }
    else if head_len > tail_len then
      let d1 := if free ≠ 0 then d.copy 0 free tail_len else d
      let b2 := d1.buf.take free ++ rotLeft (d1.buf.drop free) tail_len
      { d1 with buf := b2, head := free }
    else
      let d1 := if free ≠ 0 then d.copy d.head tail_len head_len else d
      let b2 := rotRight (d1.buf.take d1.len) head_len ++ d1.buf.drop d1.len
      { d1 with buf := b2, head := 0 }

/-- The slice returned by `make_contiguous`: `buf[head..head + len]` of the
rearranged deque. -/
def make_contiguous_slice (d : InplaceDeque α) : List α :=
  (((make_contiguous d).buf).drop (make_contiguous d).head).take (make_contiguous d).len

/-- The deque state the moment `Drain::new` (deque/drain.rs:26-42) has run:
`mem::replace(&mut deque.len, drain_start)` truncates the stored length to the
start of the drained range. -/
def drain_live (d : InplaceDeque α) (drain_start : ℕ) : InplaceDeque α :=
  { d with len := drain_start }

/-- The elements produced by fully consuming the drain's iterator
(deque/drain.rs:221-246): logical indices `drain_start..drain_start + drain_len`
read through `to_physical_index`. -/
def drain_items (d : InplaceDeque α) (drain_start drain_len : ℕ) : List α :=
  (List.range drain_len).map fun k =>
    d.buf.getD (d.to_physical_index (drain_start + k)) default

/-- The `Drop` glue of `Drain` (deque/drain.rs:99-217) after the iterator was
fully consumed (`remaining = 0`): close the gap by moving whichever side of
the drain is shorter, then fix up `head` and restore `len`. -/
def drain_finish (d : InplaceDeque α) (drain_start drain_len orig_len : ℕ) :
    InplaceDeque α :=
  let new_len := orig_len - drain_len
  let head_len := drain_start
  let tail_len := new_len - head_len
  let d1 := drain_live d drain_start
  let d2 :=
    if head_len ≠ 0 ∧ tail_len ≠ 0 then
      if head_len < tail_len then
        d1.wrap_copy d1.head (d1.to_physical_index drain_len) head_len
      else
        d1.wrap_copy (d1.to_physical_index (head_len + drain_len))
          (d1.to_physical_index head_len) tail_len
    else d1
  let d3 :=
    if new_len = 0 then { d2 with head := 0 }
    else if head_len < tail_len then { d2 with head := d2.to_physical_index drain_len }
    else d2
  { d3 with len := new_len }

end InplaceDeque

/-- A queue operation: push a value or pop one. -/
inductive QOp (α : Type) where
  | push : α → QOp α
  | pop : QOp α

namespace InplaceDeque

variable {α : Type} [Inhabited α]

/-- Drive the deque through a sequence of operations in the FIFO direction
(`push_back` to insert, `pop_front` to extract).  Returns the final deque,
the values accepted by `push_back` in push order, and the values returned by
`pop_front` in pop order; a push refused for capacity and a pop of an empty
deque leave the deque unchanged. -/
def runFB (d : InplaceDeque α) : List (QOp α) → InplaceDeque α × List α × List α
  | [] => (d, [], [])
  | QOp.push v :: ops =>
    match push_back d v with
    | .error _ => runFB d ops
    | .ok d2 =>
      let r := runFB d2 ops
      (r.1, v :: r.2.1, r.2.2)
  | QOp.pop :: ops =>
    match pop_front d with
    | none => runFB d ops
    | some (v, d2) =>
      let r := runFB d2 ops
      (r.1, r.2.1, v :: r.2.2)

/-- The front/back mirror of `runFB`: `push_front` to insert, `pop_back` to
extract. -/
def runBF (d : InplaceDeque α) : List (QOp α) → InplaceDeque α × List α × List α
  | [] => (d, [], [])
  | QOp.push v :: ops =>
    match push_front d v with
    | .error _ => runBF d ops
    | .ok d2 =>
      let r := runBF d2 ops
      (r.1, v :: r.2.1, r.2.2)
  | QOp.pop :: ops =>
    match pop_back d with
    | none => runBF d ops
    | some (v, d2) =>
      let r := runBF d2 ops
      (r.1, r.2.1, v :: r.2.2)

/-- Modelled from the spec: `mod iter;` is declared (deque/mod.rs:3) but
iter.rs is absent from src/; per the spec and the present `IterMut` mirror
(iter_mut.rs:46-58), forward iteration exhausts the first `as_slices` part and
then the second, so the sequence a full forward iteration yields is the
concatenation of the two slices (deque/mod.rs:132-135 builds
`Iter::new(a.iter(), b.iter())` from `as_slices`). -/
def iter_list (d : InplaceDeque α) : List α :=
  (as_slices d).1 ++ (as_slices d).2

end InplaceDeque

namespace SakRs

variable {α : Type} [Inhabited α]

@[simp]
theorem length_listCopy (l : List α) (src dst len : ℕ) :
    (listCopy l src dst len).length = l.length := by
  simp [listCopy]

theorem getD_listCopy (l : List α) (src dst len p : ℕ) (hp : p < l.length) :
    (listCopy l src dst len).getD p default =
      if dst ≤ p ∧ p < dst + len then l.getD (src + (p - dst)) default
      else l.getD p default := by
  rw [List.getD_eq_getElem?_getD]
  simp [listCopy, List.getElem?_eq_getElem, hp]

theorem getD_set_self (l : List α) (i : ℕ) (v : α) (hi : i < l.length) :
    (l.set i v).getD i default = v := by
  rw [List.getD_eq_getElem?_getD, List.getElem?_set_self]
  · simp
  · omega

theorem getD_set_ne (l : List α) {i j : ℕ} (v : α) (hij : i ≠ j) :
    (l.set i v).getD j default = l.getD j default := by
  rw [List.getD_eq_getElem?_getD, List.getElem?_set_ne hij, ← List.getD_eq_getElem?_getD]

theorem set_getD_self (l : List α) (i : ℕ) (hi : i < l.length) :
    l.set i (l.getD i default) = l := by
  rw [List.getD_eq_getElem l default hi]
  apply List.ext_getElem
  · simp
  · intro j h1 h2
    rw [List.getElem_set]
    split
    · subst j; rfl
    · rfl

/-- Writing an out-of-list element at position `k` and lifting the old one to
the front is a permutation of lifting the new element to the front. -/
theorem cons_set_perm (t : List α) (k : ℕ) (x : α) (hk : k < t.length) :
    (t.getD k default :: t.set k x).Perm (x :: t) := by
  induction t generalizing k with
  | nil => simp at hk
  | cons y s ih =>
    cases k with
    | zero => exact List.Perm.swap x y s
    | succ k =>
      have hk2 : k < s.length := by simpa using hk
      have e1 : (y :: s).getD (k + 1) default :: (y :: s).set (k + 1) x
          = s.getD k default :: y :: s.set k x := by simp
      rw [e1]
      refine List.Perm.trans (List.Perm.swap y (s.getD k default) (s.set k x)) ?_
      exact List.Perm.trans ((ih k hk2).cons y) (List.Perm.swap x y s)

theorem set_set_swap_perm_aux (l : List α) (i j : ℕ) (hj : j < l.length)
    (hij : i < j) :
    ((l.set i (l.getD j default)).set j (l.getD i default)).Perm l := by
  induction l generalizing i j with
  | nil => simp at hj
  | cons x t ih =>
    cases i with
    | zero =>
      obtain ⟨k, rfl⟩ : ∃ k, j = k + 1 := ⟨j - 1, by omega⟩
      have hk : k < t.length := by simpa using hj
      simpa using cons_set_perm t k x hk
    | succ ii =>
      obtain ⟨k, rfl⟩ : ∃ k, j = k + 1 := ⟨j - 1, by omega⟩
      have hk : k < t.length := by simpa using hj
      have hik : ii < k := by omega
      simpa using (ih ii k hk hik).cons x

/-- Swapping the values at two distinct positions is a permutation. -/
theorem set_set_swap_perm (l : List α) (i j : ℕ) (hi : i < l.length)
    (hj : j < l.length) (hij : i ≠ j) :
    ((l.set i (l.getD j default)).set j (l.getD i default)).Perm l := by
  rcases Nat.lt_or_ge i j with h | h
  · exact set_set_swap_perm_aux l i j hj h
  · have hji : j < i := by omega
    rw [List.set_comm _ _ _ hij]
    exact set_set_swap_perm_aux l j i hi hji

theorem getD_append_left (l l2 : List α) (c : ℕ) (h : c < l.length) :
    (l ++ l2).getD c default = l.getD c default := by
  rw [List.getD_eq_getElem?_getD, List.getElem?_append_left h,
    ← List.getD_eq_getElem?_getD]

theorem getD_concat_self (l : List α) (x : α) :
    (l ++ [x]).getD l.length default = x := by
  rw [List.getD_eq_getElem?_getD]
  simp

theorem getD_dropLast (l : List α) (i : ℕ) (h : i < l.length - 1) :
    l.dropLast.getD i default = l.getD i default := by
  rw [List.getD_eq_getElem?_getD, List.getD_eq_getElem?_getD, List.getElem?_dropLast]
  simp [h]

end SakRs

namespace InplaceHeap

variable {α : Type} [Inhabited α] [LinearOrder α]

@[simp]
theorem Hole.length_fill (h : Hole α) : h.fill.length = h.data.length := by
  simp [Hole.fill]

theorem heapUpTo_iff_isHeap (l : List α) : HeapUpTo l l.length ↔ IsHeap l := by
  constructor
  · intro h i hi
    refine ⟨fun h1 => ?_, fun h2 => ?_⟩
    · have := h (2 * i + 1) (by omega) h1 (by omega)
      have hpar : (2 * i + 1 - 1) / 2 = i := by omega
      rwa [hpar] at this
    · have := h (2 * i + 2) (by omega) h2 (by omega)
      have hpar : (2 * i + 2 - 1) / 2 = i := by omega
      rwa [hpar] at this
  · intro h c hc0 hcn _
    have hpn : (c - 1) / 2 < l.length := by omega
    rcases (h ((c - 1) / 2) hpn) with ⟨h1, h2⟩
    have : c = 2 * ((c - 1) / 2) + 1 ∨ c = 2 * ((c - 1) / 2) + 2 := by omega
    rcases this with hodd | heven
    · have := h1 (by omega)
      rwa [← hodd] at this
    · have := h2 (by omega)
      rwa [← heven] at this

theorem siftUpLoop_spec {n B : ℕ} {orig : List α} (h : Hole α)
    (inv : SUInv n B orig h) :
    (siftUpLoop 0 h).fill.length = n ∧
      (siftUpLoop 0 h).fill.Perm orig ∧
      HeapUpTo (siftUpLoop 0 h).fill B := by
  have hlen := inv.hlen
  have hposn := inv.hpos
  have hposB2 := inv.hposB
  rw [siftUpLoop]
  split
  case isFalse hp =>
    -- the hole is at the root (pos = 0); fill it
    have hq : h.pos = 0 := by omega
    refine ⟨by simp [Hole.fill, inv.hlen], by simpa [Hole.fill] using inv.hperm, ?_⟩
    intro c hc0 hcn hcB
    have hcn2 : c < n := by simpa [Hole.fill, inv.hlen] using hcn
    have hcq : c ≠ h.pos := by omega
    have hpar2 : (c - 1) / 2 < n := by omega
    by_cases hpq : (c - 1) / 2 = h.pos
    · rw [Hole.fill, SakRs.getD_set_ne _ _ (by omega), hpq,
        SakRs.getD_set_self _ _ _ (by omega : h.pos < h.data.length)]
      exact inv.holeChildren c hc0 hcn2 hcB hpq
    · rw [Hole.fill, SakRs.getD_set_ne _ _ (by omega),
        SakRs.getD_set_ne _ _ (by omega)]
      exact inv.pairs c hc0 hcn2 hcB hcq
  case isTrue hp =>
    split
    case isTrue hstop =>
      -- in order: the element stays in the hole's position
      refine ⟨by simp [Hole.fill, inv.hlen], by simpa [Hole.fill] using inv.hperm, ?_⟩
      intro c hc0 hcn hcB
      have hcn2 : c < n := by simpa [Hole.fill, inv.hlen] using hcn
      have hpar2 : (c - 1) / 2 < n := by omega
      by_cases hcq : c = h.pos
      · rw [Hole.fill, hcq, SakRs.getD_set_self _ _ _ (by omega : h.pos < h.data.length),
          SakRs.getD_set_ne _ _ (by omega)]
        exact hstop
      · by_cases hpq : (c - 1) / 2 = h.pos
        · rw [Hole.fill, SakRs.getD_set_ne _ _ (by omega), hpq,
            SakRs.getD_set_self _ _ _ (by omega : h.pos < h.data.length)]
          exact inv.holeChildren c hc0 hcn2 hcB hpq
        · rw [Hole.fill, SakRs.getD_set_ne _ _ (by omega),
            SakRs.getD_set_ne _ _ (by omega)]
          exact inv.pairs c hc0 hcn2 hcB hcq
    case isFalse hstop =>
      -- move the parent down into the hole, recurse with the hole at the parent
      have hlt : h.get ((h.pos - 1) / 2) < h.elt := lt_of_not_le hstop
      set q := h.pos with hq
      set a := (h.pos - 1) / 2 with ha
      have haq : a < q := by omega
      have han : a < n := by omega
      have hqlen : q < h.data.length := by rw [inv.hlen]; exact inv.hpos
      have halen : a < h.data.length := by rw [inv.hlen]; exact han
      apply siftUpLoop_spec
      refine ⟨by simp [Hole.moveTo, inv.hlen], by simpa [Hole.moveTo] using han,
        by simp [Hole.moveTo]; omega, ?_, ?_, ?_, ?_⟩
      · -- pairs
        intro c hc0 hcn hcB hca
        simp only [Hole.moveTo]
        by_cases hcq : c = q
        · have hpc : (q - 1) / 2 = a := ha.symm
          rw [hcq, hpc, SakRs.getD_set_self _ _ _ hqlen, SakRs.getD_set_ne _ _ (by omega)]
        · by_cases hpq : (c - 1) / 2 = q
          · have hgt : q < c := by omega
            rw [SakRs.getD_set_ne _ _ (by omega), hpq,
              SakRs.getD_set_self _ _ _ hqlen]
            have h1 : h.data.getD c default ≤ h.data.getD q default := by
              have := inv.pairs c hc0 hcn hcB hcq
              rwa [hpq] at this
            have h2 : h.data.getD q default ≤ h.data.getD a default := by
              have := inv.holePair c hc0 hcn hcB hpq (by omega)
              rwa [← ha] at this
            exact le_trans h1 h2
          · rw [SakRs.getD_set_ne _ _ (by omega), SakRs.getD_set_ne _ _ (by omega)]
            exact inv.pairs c hc0 hcn hcB hcq
      · -- holeChildren: children of the new hole position `a`
        intro c hc0 hcn hcB hpa
        simp only [Hole.moveTo]
        by_cases hcq : c = q
        · subst hcq
          rw [SakRs.getD_set_self _ _ _ hqlen]
          exact le_of_lt hlt
        · rw [SakRs.getD_set_ne _ _ (by omega)]
          have h1 : h.data.getD c default ≤ h.data.getD a default := by
            have := inv.pairs c hc0 hcn hcB hcq
            rwa [hpa] at this
          exact le_trans h1 (le_of_lt hlt)
      · -- holePair for the new hole at `a`
        intro c hc0 hcn hcB hpa hapos
        simp only [Hole.moveTo]
        have hana : (a - 1) / 2 ≠ q := by omega
        rw [SakRs.getD_set_ne _ _ (by omega), SakRs.getD_set_ne _ _ (by omega)]
        exact inv.pairs a hapos han (by omega) (by omega)
      · -- permutation
        simp only [Hole.moveTo]
        have e1 : (h.data.set q (h.data.getD a default)).set a h.elt
            = ((h.data.set q h.elt).set q ((h.data.set q h.elt).getD a default)).set a
                ((h.data.set q h.elt).getD q default) := by
          rw [SakRs.getD_set_ne _ _ (by omega : q ≠ a),
            SakRs.getD_set_self _ _ _ hqlen, List.set_set]
        rw [e1]
        have hperm2 := SakRs.set_set_swap_perm (h.data.set q h.elt)
          q a (by simpa using hqlen) (by simpa using halen) (by omega)
        exact hperm2.trans inv.hperm
termination_by h.pos
decreasing_by simp [Hole.moveTo]; omega

/-- Correctness of `sift_up` from position `p` with `start = 0`: if all
parent/child pairs with child `≤ B` other than those involving `p` are
ordered, and the (possibly out-of-order) element at `p` already dominates the
in-range children of `p`, then the result is ordered up to `B` and is a
permutation of the input. -/
theorem sift_up_spec (l : List α) (p B : ℕ) (hp : p < l.length) (hpB : p ≤ B)
    (hpairs : ∀ c, 0 < c → c < l.length → c ≤ B → c ≠ p →
      l.getD c default ≤ l.getD ((c - 1) / 2) default)
    (hchild : ∀ c, 0 < c → c < l.length → c ≤ B → (c - 1) / 2 = p →
      l.getD c default ≤ l.getD p default)
    (hholePair : ∀ c, 0 < c → c < l.length → c ≤ B → (c - 1) / 2 = p → 0 < p →
      l.getD p default ≤ l.getD ((p - 1) / 2) default) :
    (sift_up l 0 p).1.length = l.length ∧ (sift_up l 0 p).1.Perm l ∧
      HeapUpTo (sift_up l 0 p).1 B := by
  have inv : SUInv l.length B l (Hole.new l p) := by
    refine ⟨rfl, hp, hpB, ?_, ?_, ?_, ?_⟩
    · intro c hc0 hcn hcB hcp
      exact hpairs c hc0 hcn hcB hcp
    · intro c hc0 hcn hcB hpc
      exact hchild c hc0 hcn hcB hpc
    · intro c hc0 hcn hcB hpc hppos
      exact hholePair c hc0 hcn hcB hpc hppos
    · simp only [Hole.new]
      rw [SakRs.set_getD_self l p hp]
  exact siftUpLoop_spec (Hole.new l p) inv

theorem heapFrom_zero_iff_isHeap (l : List α) : HeapFrom l 0 ↔ IsHeap l := by
  rw [← heapUpTo_iff_isHeap]
  constructor
  · intro h c hc0 hcn _
    exact h c hc0 hcn (by omega)
  · intro h c hc0 hcn _
    exact h c hc0 hcn (by omega)

theorem maxChild_facts (h : Hole α) :
    (h.maxChild = 2 * h.pos + 1 ∨ h.maxChild = 2 * h.pos + 2) ∧
      h.get (2 * h.pos + 1) ≤ h.get h.maxChild ∧
      h.get (2 * h.pos + 2) ≤ h.get h.maxChild := by
  unfold Hole.maxChild
  split
  case isTrue hle => exact ⟨Or.inr rfl, hle, le_refl _⟩
  case isFalse hle => exact ⟨Or.inl (by omega), le_refl _, le_of_lt (lt_of_not_le hle)⟩

/-- One `move_to` step of the descent: the greater child is moved up into the
hole and the invariant is preserved. -/
theorem SDInv.moveTo_maxChild {n p : ℕ} {orig : List α} {h : Hole α}
    (inv : SDInv n p orig h) (hguard : 2 * h.pos + 1 ≤ n - 2)
    (hmove : h.elt < h.get h.maxChild) :
    SDInv n p orig (h.moveTo h.maxChild) := by
  obtain ⟨hmc, hsib1, hsib2⟩ := maxChild_facts h
  have hlen := inv.hlen
  have hposn := inv.hpos
  have hposP := inv.hposP
  set q := h.pos with hq
  set c2 := h.maxChild with hc2def
  have hc2a : c2 = 2 * q + 1 ∨ c2 = 2 * q + 2 := hmc
  have hc2n : c2 < n := by omega
  have hc2q : q < c2 := by omega
  have hqlen : q < h.data.length := by omega
  have hparc2 : (c2 - 1) / 2 = q := by omega
  refine ⟨by simp [Hole.moveTo, hlen], by simpa [Hole.moveTo] using hc2n,
    by simp [Hole.moveTo]; omega, ?_, ?_, ?_, ?_⟩
  · -- pairs
    intro c hc0 hcn hcp hcpar hcc
    simp only [Hole.moveTo] at hcpar hcc
    simp only [Hole.moveTo]
    by_cases hcq : c = q
    · -- the old hole position: its new value is the moved child's value
      have hq0 : 0 < q := by omega
      have hqp : p < q := by
        rcases Nat.eq_or_lt_of_le hposP with he | hlt2
        · exfalso; rw [hcq] at hcp; omega
        · exact hlt2
      have hparq : (c - 1) / 2 ≠ q := by omega
      rw [hcq, SakRs.getD_set_self _ _ _ hqlen, SakRs.getD_set_ne _ _ (by omega)]
      have h2 := inv.holeChildren hqp c2 hc2n hparc2
      rwa [← hq] at h2
    · by_cases hpq : (c - 1) / 2 = q
      · -- a sibling of the moved child
        have hcchild : c = 2 * q + 1 ∨ c = 2 * q + 2 := by omega
        rw [SakRs.getD_set_ne _ _ (by omega), hpq, SakRs.getD_set_self _ _ _ hqlen]
        rcases hcchild with hcc1 | hcc2
        · have := hsib1; rw [← hcc1] at this; exact this
        · have := hsib2; rw [← hcc2] at this; exact this
      · rw [SakRs.getD_set_ne _ _ (by omega), SakRs.getD_set_ne _ _ (by omega)]
        exact inv.pairs c hc0 hcn hcp hpq hcq
  · -- children of the new hole are bounded by the value moved into the old one
    intro _ c hcn hcpar
    simp only [Hole.moveTo] at hcpar
    simp only [Hole.moveTo]
    have hc0 : 0 < c := by omega
    have hcgt : c2 < c := by omega
    have hcq : c ≠ q := by omega
    rw [SakRs.getD_set_ne _ _ (by omega), hparc2, SakRs.getD_set_self _ _ _ hqlen]
    have := inv.pairs c hc0 hcn (by omega) (by omega) hcq
    rwa [hcpar] at this
  · -- the lifted element is smaller than the value at the new hole's parent
    intro _
    simp only [Hole.moveTo]
    rw [hparc2, SakRs.getD_set_self _ _ _ hqlen]
    exact hmove
  · -- permutation
    simp only [Hole.moveTo]
    have hc2len : c2 < h.data.length := by omega
    have e1 : (h.data.set q (h.data.getD c2 default)).set c2 h.elt
        = ((h.data.set q h.elt).set q ((h.data.set q h.elt).getD c2 default)).set c2
            ((h.data.set q h.elt).getD q default) := by
      rw [SakRs.getD_set_ne _ _ (by omega : q ≠ c2),
        SakRs.getD_set_self _ _ _ hqlen, List.set_set]
    rw [e1]
    have hperm2 := SakRs.set_set_swap_perm (h.data.set q h.elt)
      q c2 (by simpa using hqlen) (by simpa using hc2len) (by omega)
    exact hperm2.trans inv.hperm

theorem siftDownLoop_post {n p : ℕ} {orig : List α} (h : Hole α)
    (inv : SDInv n p orig h) :
    SDInv n p orig (siftDownLoop n h).1 ∧
      ((siftDownLoop n h).2 = true →
        2 * (siftDownLoop n h).1.pos + 1 ≤ n - 2 ∧
          (siftDownLoop n h).1.get (siftDownLoop n h).1.maxChild ≤
            (siftDownLoop n h).1.elt) ∧
      ((siftDownLoop n h).2 = false → ¬2 * (siftDownLoop n h).1.pos + 1 ≤ n - 2) := by
  rw [siftDownLoop]
  split
  case isTrue hguard =>
    split
    case isTrue hstop =>
      exact ⟨inv, fun _ => ⟨hguard, hstop⟩, fun hfalse => by simp at hfalse⟩
    case isFalse hstop =>
      exact siftDownLoop_post (h.moveTo h.maxChild)
        (inv.moveTo_maxChild hguard (lt_of_not_le hstop))
  case isFalse hguard =>
    exact ⟨inv, fun htrue => by simp at htrue, fun _ => hguard⟩
termination_by n - h.pos
decreasing_by simp [Hole.moveTo, Hole.maxChild]; split <;> omega

/-- Correctness of `sift_down_range` over the whole storage: if every pair
with parent index `≥ p` other than those parented at `p` itself is ordered,
the result is ordered from `p` on and is a permutation of the input. -/
theorem sift_down_range_spec (l : List α) (p : ℕ) (hp : p < l.length)
    (hpairs : ∀ c, 0 < c → c < l.length → p ≤ (c - 1) / 2 → (c - 1) / 2 ≠ p →
      l.getD c default ≤ l.getD ((c - 1) / 2) default) :
    (sift_down_range l p l.length).length = l.length ∧
      (sift_down_range l p l.length).Perm l ∧
      HeapFrom (sift_down_range l p l.length) p := by
  have inv0 : SDInv l.length p l (Hole.new l p) := by
    refine ⟨rfl, hp, le_refl p, ?_, ?_, ?_, ?_⟩
    · intro c hc0 hcn hcp hcpar _
      exact hpairs c hc0 hcn hcp hcpar
    · intro hlt; simp only [Hole.new] at hlt; omega
    · intro hlt; simp only [Hole.new] at hlt; omega
    · simp only [Hole.new]
      rw [SakRs.set_getD_self l p hp]
  obtain ⟨inv, hearly, hlate⟩ := siftDownLoop_post (Hole.new l p) inv0
  have hlen := inv.hlen
  have hposn := inv.hpos
  have hposP := inv.hposP
  unfold sift_down_range
  set r := siftDownLoop l.length (Hole.new l p) with hr
  set q := r.1.pos with hq
  have hqlen : q < r.1.data.length := by omega
  -- `p < q → elt < parent value` and `p < q → children ≤ parent value` at exit
  have hqp_of : ∀ c, 0 < c → c < l.length → c = q → p ≤ (c - 1) / 2 → p < q := by
    intro c hc0 hcn hcq hcp
    rcases Nat.eq_or_lt_of_le hposP with he | hlt2
    · exfalso; rw [hcq] at hcp; omega
    · exact hlt2
  by_cases hbool : r.2 = true
  · -- early in-order exit: fill the hole where it is
    rw [if_pos hbool]
    obtain ⟨hguard, hstop⟩ := hearly hbool
    obtain ⟨hmc, hsib1, hsib2⟩ := maxChild_facts r.1
    refine ⟨by simp [Hole.fill, hlen], by simpa [Hole.fill] using inv.hperm, ?_⟩
    intro c hc0 hcn hcp
    have hcn2 : c < l.length := by simpa [Hole.fill, hlen] using hcn
    by_cases hcq : c = q
    · have hqp : p < q := hqp_of c hc0 hcn2 hcq hcp
      rw [Hole.fill, hcq, SakRs.getD_set_self _ _ _ hqlen,
        SakRs.getD_set_ne _ _ (by omega)]
      exact le_of_lt (inv.holeElt hqp)
    · by_cases hpq : (c - 1) / 2 = q
      · have hcchild : c = 2 * q + 1 ∨ c = 2 * q + 2 := by omega
        rw [Hole.fill, SakRs.getD_set_ne _ _ (by omega), hpq,
          SakRs.getD_set_self _ _ _ hqlen]
        have hcle : r.1.get c ≤ r.1.get r.1.maxChild := by
          rcases hcchild with h1 | h1
          · rw [h1]; exact hsib1
          · rw [h1]; exact hsib2
        exact le_trans hcle hstop
      · rw [Hole.fill, SakRs.getD_set_ne _ _ (by omega),
          SakRs.getD_set_ne _ _ (by omega)]
        exact inv.pairs c hc0 hcn2 hcp hpq hcq
  · -- the loop ran off the bottom
    have hbool2 : r.2 = false := by
      cases hb : r.2
      · rfl
      · exact absurd hb hbool
    rw [if_neg hbool]
    have hnoguard : ¬2 * q + 1 ≤ l.length - 2 := hlate hbool2
    split
    next hfin =>
      -- single trailing child `2q+1 = len - 1`, and the element is smaller
      obtain ⟨hchild, hlt⟩ := hfin
      have hchn : 2 * q + 1 < l.length := by omega
      have hchlen : 2 * q + 1 < r.1.data.length := by omega
      refine ⟨by simp [Hole.moveTo, Hole.fill, hlen], ?_, ?_⟩
      · -- permutation
        simp only [Hole.moveTo, Hole.fill]
        have e1 : (r.1.data.set q (r.1.data.getD (2 * q + 1) default)).set (2 * q + 1) r.1.elt
            = ((r.1.data.set q r.1.elt).set q
                ((r.1.data.set q r.1.elt).getD (2 * q + 1) default)).set (2 * q + 1)
                ((r.1.data.set q r.1.elt).getD q default) := by
          rw [SakRs.getD_set_ne _ _ (by omega : q ≠ 2 * q + 1),
            SakRs.getD_set_self _ _ _ hqlen, List.set_set]
        rw [e1]
        have hperm2 := SakRs.set_set_swap_perm (r.1.data.set q r.1.elt)
          q (2 * q + 1) (by simpa using hqlen) (by simpa using hchlen)
          (by omega)
        exact hperm2.trans inv.hperm
      · -- heap order from `p`
        intro c hc0 hcn hcp
        have hcn2 : c < l.length := by simpa [Hole.moveTo, Hole.fill, hlen] using hcn
        simp only [Hole.moveTo, Hole.fill]
        by_cases hcc : c = 2 * q + 1
        · -- the element now rests at the old child slot
          have hparc : (c - 1) / 2 = q := by omega
          rw [hcc, SakRs.getD_set_self _ _ _ (by simpa using hchlen)]
          have hparc2 : (2 * q + 1 - 1) / 2 = q := by omega
          rw [hparc2, SakRs.getD_set_ne _ _ (by omega : 2 * q + 1 ≠ q),
            SakRs.getD_set_self _ _ _ hqlen]
          exact le_of_lt hlt
        · by_cases hcq : c = q
          · have hqp : p < q := hqp_of c hc0 hcn2 hcq hcp
            have hparne : (c - 1) / 2 ≠ 2 * q + 1 := by omega
            have hparne2 : (c - 1) / 2 ≠ q := by omega
            rw [hcq, SakRs.getD_set_ne _ _ (by omega : 2 * q + 1 ≠ q),
              SakRs.getD_set_self _ _ _ hqlen,
              SakRs.getD_set_ne _ _ (by omega), SakRs.getD_set_ne _ _ (by omega)]
            have := inv.holeChildren hqp (2 * q + 1) hchn (by omega)
            exact this
          · by_cases hpq : (c - 1) / 2 = q
            · -- the only other child of `q` would be `2q+2 = len`, out of range
              exfalso; omega
            · by_cases hpch : (c - 1) / 2 = 2 * q + 1
              · -- children of the final resting slot are out of range
                exfalso; omega
              · rw [SakRs.getD_set_ne _ _ (by omega), SakRs.getD_set_ne _ _ (by omega),
                  SakRs.getD_set_ne _ _ (by omega), SakRs.getD_set_ne _ _ (by omega)]
                exact inv.pairs c hc0 hcn2 hcp hpq hcq
    next hfin =>
      refine ⟨by simp [Hole.fill, hlen], by simpa [Hole.fill] using inv.hperm, ?_⟩
      intro c hc0 hcn hcp
      have hcn2 : c < l.length := by simpa [Hole.fill, hlen] using hcn
      by_cases hcq : c = q
      · have hqp : p < q := hqp_of c hc0 hcn2 hcq hcp
        rw [Hole.fill, hcq, SakRs.getD_set_self _ _ _ hqlen,
          SakRs.getD_set_ne _ _ (by omega)]
        exact le_of_lt (inv.holeElt hqp)
      · by_cases hpq : (c - 1) / 2 = q
        · -- `c` is an in-range child of `q`; it must be the single child
          -- `2q+1 = len - 1` and the trailing check must have found it in order
          have hcc : c = 2 * q + 1 := by omega
          have hchild : 2 * q + 1 = l.length - 1 := by omega
          have hle : ¬r.1.elt < r.1.get (2 * q + 1) := by
            intro hcon
            exact hfin ⟨hchild, hcon⟩
          rw [Hole.fill, SakRs.getD_set_ne _ _ (by omega), hpq,
            SakRs.getD_set_self _ _ _ hqlen]
          have := le_of_not_lt hle
          rw [← hcc] at this
          exact this
        · rw [Hole.fill, SakRs.getD_set_ne _ _ (by omega),
            SakRs.getD_set_ne _ _ (by omega)]
          exact inv.pairs c hc0 hcn2 hcp hpq hcq

theorem SDBInv.moveTo_maxChild_desc {n : ℕ} {orig : List α} {h : Hole α}
    (inv : SDBInv n orig h) (hguard : 2 * h.pos + 1 ≤ n - 2) :
    SDBInv n orig (h.moveTo h.maxChild) := by
  obtain ⟨hmc, hsib1, hsib2⟩ := maxChild_facts h
  have hlen := inv.hlen
  have hposn := inv.hpos
  set q := h.pos with hq
  set c2 := h.maxChild with hc2def
  have hc2a : c2 = 2 * q + 1 ∨ c2 = 2 * q + 2 := hmc
  have hc2n : c2 < n := by omega
  have hc2q : q < c2 := by omega
  have hqlen : q < h.data.length := by omega
  have hparc2 : (c2 - 1) / 2 = q := by omega
  refine ⟨by simp [Hole.moveTo, hlen], by simpa [Hole.moveTo] using hc2n, ?_, ?_, ?_⟩
  · -- pairs
    intro c hc0 hcn hcpar hcc
    simp only [Hole.moveTo] at hcpar hcc
    simp only [Hole.moveTo]
    by_cases hcq : c = q
    · have hq0 : 0 < q := by omega
      have hparq : (c - 1) / 2 ≠ q := by omega
      rw [hcq, SakRs.getD_set_self _ _ _ hqlen, SakRs.getD_set_ne _ _ (by omega)]
      have h2 := inv.holeChildren hq0 c2 hc2n hparc2
      rwa [← hq] at h2
    · by_cases hpq : (c - 1) / 2 = q
      · have hcchild : c = 2 * q + 1 ∨ c = 2 * q + 2 := by omega
        rw [SakRs.getD_set_ne _ _ (by omega), hpq, SakRs.getD_set_self _ _ _ hqlen]
        rcases hcchild with hcc1 | hcc2
        · have := hsib1; rw [← hcc1] at this; exact this
        · have := hsib2; rw [← hcc2] at this; exact this
      · rw [SakRs.getD_set_ne _ _ (by omega), SakRs.getD_set_ne _ _ (by omega)]
        exact inv.pairs c hc0 hcn hpq hcq
  · -- children of the new hole
    intro _ c hcn hcpar
    simp only [Hole.moveTo] at hcpar
    simp only [Hole.moveTo]
    have hc0 : 0 < c := by omega
    have hcgt : c2 < c := by omega
    have hcq : c ≠ q := by omega
    rw [SakRs.getD_set_ne _ _ (by omega), hparc2, SakRs.getD_set_self _ _ _ hqlen]
    have := inv.pairs c hc0 hcn (by omega) hcq
    rwa [hcpar] at this
  · -- permutation
    simp only [Hole.moveTo]
    have hc2len : c2 < h.data.length := by omega
    have e1 : (h.data.set q (h.data.getD c2 default)).set c2 h.elt
        = ((h.data.set q h.elt).set q ((h.data.set q h.elt).getD c2 default)).set c2
            ((h.data.set q h.elt).getD q default) := by
      rw [SakRs.getD_set_ne _ _ (by omega : q ≠ c2),
        SakRs.getD_set_self _ _ _ hqlen, List.set_set]
    rw [e1]
    have hperm2 := SakRs.set_set_swap_perm (h.data.set q h.elt)
      q c2 (by simpa using hqlen) (by simpa using hc2len) (by omega)
    exact hperm2.trans inv.hperm

theorem siftDownBottomLoop_post {n : ℕ} {orig : List α} (h : Hole α)
    (inv : SDBInv n orig h) :
    SDBInv n orig (siftDownBottomLoop n h) ∧
      ¬2 * (siftDownBottomLoop n h).pos + 1 ≤ n - 2 := by
  rw [siftDownBottomLoop]
  split
  case isTrue hguard =>
    exact siftDownBottomLoop_post (h.moveTo h.maxChild) (inv.moveTo_maxChild_desc hguard)
  case isFalse hguard =>
    exact ⟨inv, hguard⟩
termination_by n - h.pos
decreasing_by simp [Hole.moveTo, Hole.maxChild]; split <;> omega

/-- The trailing single-child move of `sift_down_to_bottom` also preserves the
descent invariant. -/
theorem SDBInv.moveTo_last {n : ℕ} {orig : List α} {h : Hole α}
    (inv : SDBInv n orig h) (hlast : 2 * h.pos + 1 = n - 1) (hn : 0 < n) :
    SDBInv n orig (h.moveTo (2 * h.pos + 1)) := by
  have hlen := inv.hlen
  have hposn := inv.hpos
  set q := h.pos with hq
  have hchn : 2 * q + 1 < n := by omega
  have hqlen : q < h.data.length := by omega
  have hchlen : 2 * q + 1 < h.data.length := by omega
  refine ⟨by simp [Hole.moveTo, hlen], by simpa [Hole.moveTo] using hchn, ?_, ?_, ?_⟩
  · intro c hc0 hcn hcpar hcc
    simp only [Hole.moveTo] at hcpar hcc
    simp only [Hole.moveTo]
    by_cases hcq : c = q
    · have hq0 : 0 < q := by omega
      have hparq : (c - 1) / 2 ≠ q := by omega
      rw [hcq, SakRs.getD_set_self _ _ _ hqlen, SakRs.getD_set_ne _ _ (by omega)]
      have h2 := inv.holeChildren hq0 (2 * q + 1) hchn (by omega)
      rwa [← hq] at h2
    · by_cases hpq : (c - 1) / 2 = q
      · -- the only other child of `q` would be `2q+2 = n`, out of range
        exfalso; omega
      · rw [SakRs.getD_set_ne _ _ (by omega), SakRs.getD_set_ne _ _ (by omega)]
        exact inv.pairs c hc0 hcn hpq hcq
  · -- children of the new hole are out of range
    intro _ c hcn hcpar
    simp only [Hole.moveTo] at hcpar
    exfalso; omega
  · simp only [Hole.moveTo]
    have e1 : (h.data.set q (h.data.getD (2 * q + 1) default)).set (2 * q + 1) h.elt
        = ((h.data.set q h.elt).set q ((h.data.set q h.elt).getD (2 * q + 1) default)).set
            (2 * q + 1) ((h.data.set q h.elt).getD q default) := by
      rw [SakRs.getD_set_ne _ _ (by omega : q ≠ 2 * q + 1),
        SakRs.getD_set_self _ _ _ hqlen, List.set_set]
    rw [e1]
    have hperm2 := SakRs.set_set_swap_perm (h.data.set q h.elt)
      q (2 * q + 1) (by simpa using hqlen) (by simpa using hchlen) (by omega)
    exact hperm2.trans inv.hperm

/-- Correctness of `sift_down_to_bottom` from the root: if every pair not
parented at the root is ordered, the result is a heap and a permutation of the
input. -/
theorem sift_down_to_bottom_spec (l : List α) (hl : 0 < l.length)
    (hpairs : ∀ c, 0 < c → c < l.length → (c - 1) / 2 ≠ 0 →
      l.getD c default ≤ l.getD ((c - 1) / 2) default) :
    (sift_down_to_bottom l 0).length = l.length ∧
      (sift_down_to_bottom l 0).Perm l ∧ IsHeap (sift_down_to_bottom l 0) := by
  have inv0 : SDBInv l.length l (Hole.new l 0) := by
    refine ⟨rfl, hl, ?_, ?_, ?_⟩
    · intro c hc0 hcn hcpar _
      exact hpairs c hc0 hcn (by simpa [Hole.new] using hcpar)
    · intro h0; simp only [Hole.new] at h0; omega
    · simp only [Hole.new]
      rw [SakRs.set_getD_self l 0 hl]
  obtain ⟨inv, hnoguard⟩ := siftDownBottomLoop_post (Hole.new l 0) inv0
  set h2 := siftDownBottomLoop l.length (Hole.new l 0) with hh2
  -- the hole after the optional trailing move; in either case `SDBInv` holds
  -- and the hole rests at a leaf
  have step : SDBInv l.length l
        (if 2 * h2.pos + 1 = l.length - 1 then h2.moveTo (2 * h2.pos + 1) else h2) ∧
      2 * (if 2 * h2.pos + 1 = l.length - 1 then h2.moveTo (2 * h2.pos + 1) else h2).pos
          + 1 ≥ l.length := by
    split
    next hlast =>
      refine ⟨inv.moveTo_last hlast hl, ?_⟩
      simp only [Hole.moveTo]
      omega
    next hlast =>
      exact ⟨inv, by omega⟩
  set h3 := if 2 * h2.pos + 1 = l.length - 1 then h2.moveTo (2 * h2.pos + 1) else h2
    with hh3
  obtain ⟨inv3, hleaf⟩ := step
  have hdef : sift_down_to_bottom l 0 = (sift_up h3.fill 0 h3.pos).1 := rfl
  rw [hdef]
  have hlen3 := inv3.hlen
  have hpos3 := inv3.hpos
  have hfill_len : h3.fill.length = l.length := by simp [Hole.fill, hlen3]
  have hfill_perm : h3.fill.Perm l := by simpa [Hole.fill] using inv3.hperm
  have hfill_pairs : ∀ c, 0 < c → c < h3.fill.length → c ≤ h3.fill.length →
      c ≠ h3.pos → h3.fill.getD c default ≤ h3.fill.getD ((c - 1) / 2) default := by
    intro c hc0 hcn _ hcq
    have hcn2 : c < l.length := by omega
    have hposlen : h3.pos < h3.data.length := by omega
    by_cases hpq : (c - 1) / 2 = h3.pos
    · -- `c` would be an in-range child of the leaf hole
      exfalso; omega
    · rw [Hole.fill, SakRs.getD_set_ne _ _ (by omega),
        SakRs.getD_set_ne _ _ (by omega)]
      exact inv3.pairs c hc0 hcn2 hpq hcq
  obtain ⟨rlen, rperm, rheap⟩ := sift_up_spec h3.fill h3.pos h3.fill.length
    (by omega) (by omega)
    hfill_pairs
    (by intro c hc0 hcn _ hpc; exfalso; omega)
    (by intro c hc0 hcn _ hpc _; exfalso; omega)
  refine ⟨by omega, rperm.trans hfill_perm, ?_⟩
  have : HeapUpTo (sift_up h3.fill 0 h3.pos).1 (sift_up h3.fill 0 h3.pos).1.length := by
    intro c hc0 hcn hcB
    exact rheap c hc0 hcn (by omega)
  exact (heapUpTo_iff_isHeap _).mp this

theorem rebuildLoop_spec (m : ℕ) (l : List α) (hm : 2 * m ≤ l.length + 1)
    (hpre : HeapFrom l m) :
    (rebuildLoop l m).length = l.length ∧ (rebuildLoop l m).Perm l ∧
      HeapFrom (rebuildLoop l m) 0 := by
  induction m generalizing l with
  | zero => exact ⟨rfl, List.Perm.refl l, hpre⟩
  | succ m ih =>
    have hmlen : m < l.length := by omega
    obtain ⟨slen, sperm, sheap⟩ := sift_down_range_spec l m hmlen
      (by
        intro c hc0 hcn hcp hcpar
        exact hpre c hc0 hcn (by omega))
    rw [rebuildLoop]
    have hsd : sift_down l m = sift_down_range l m l.length := by
      rw [sift_down]
    rw [hsd]
    obtain ⟨rlen, rperm, rheap⟩ := ih (sift_down_range l m l.length)
      (by omega) (by
        intro c hc0 hcn hcp
        exact sheap c hc0 hcn (by omega))
    exact ⟨by omega, rperm.trans sperm, rheap⟩

/-- Correctness of the bottom-up `rebuild`: the result is a heap and a
permutation of the input, with no precondition. -/
theorem rebuild_spec (l : List α) :
    (rebuild l).length = l.length ∧ (rebuild l).Perm l ∧ IsHeap (rebuild l) := by
  obtain ⟨rlen, rperm, rheap⟩ := rebuildLoop_spec (l.length / 2) l (by omega)
    (by
      intro c hc0 hcn hcp
      exfalso; omega)
  refine ⟨rlen, rperm, (heapFrom_zero_iff_isHeap _).mp ?_⟩
  exact rheap

theorem siftUpRange_spec (i en : ℕ) (l : List α) (hen : en = l.length)
    (hi : 1 ≤ i) (hinv : HeapUpTo l (i - 1)) :
    (siftUpRange l i en).length = l.length ∧ (siftUpRange l i en).Perm l ∧
      HeapUpTo (siftUpRange l i en) en := by
  rw [siftUpRange]
  split
  case isTrue hlt =>
    obtain ⟨slen, sperm, sheap⟩ := sift_up_spec l i i (by omega) (le_refl i)
      (by
        intro c hc0 hcn hcB hcp
        exact hinv c hc0 hcn (by omega))
      (by intro c hc0 hcn hcB hpc; exfalso; omega)
      (by intro c hc0 hcn hcB hpc _; exfalso; omega)
    obtain ⟨rlen, rperm, rheap⟩ := siftUpRange_spec (i + 1) en (sift_up l 0 i).1
      (by omega) (by omega)
      (by
        intro c hc0 hcn hcB
        exact sheap c hc0 hcn (by omega))
    exact ⟨by omega, rperm.trans sperm, rheap⟩
  case isFalse hlt =>
    refine ⟨rfl, List.Perm.refl l, ?_⟩
    intro c hc0 hcn hcB
    exact hinv c hc0 hcn (by omega)
termination_by en - i
decreasing_by omega

/-- Correctness of `rebuild_tail`: if the parent/child pairs with child below
`start` are ordered (the prefix `data[0..start]` is a proper heap), the repair
produces a heap that is a permutation of the input, in both branches of the
crossover heuristic. -/
theorem rebuild_tail_spec (l : List α) (start : ℕ) (hstart : start ≤ l.length)
    (hpre : ∀ c, 0 < c → c < l.length → c < start →
      l.getD c default ≤ l.getD ((c - 1) / 2) default) :
    (rebuild_tail l start).length = l.length ∧ (rebuild_tail l start).Perm l ∧
      IsHeap (rebuild_tail l start) := by
  simp only [rebuild_tail]
  split
  case isTrue heq =>
    refine ⟨rfl, List.Perm.refl l, ?_⟩
    refine (heapUpTo_iff_isHeap l).mp ?_
    intro c hc0 hcn hcB
    exact hpre c hc0 hcn (by omega)
  case isFalse hne =>
    split
    next hshort =>
      simpa using rebuild_spec l
    next hlong =>
      have hi : 1 ≤ start := by omega
      obtain ⟨rlen, rperm, rheap⟩ := siftUpRange_spec start l.length l rfl hi
        (by
          intro c hc0 hcn hcB
          exact hpre c hc0 hcn (by omega))
      have hfin : (siftUpRange l start l.length).length = l.length ∧
          (siftUpRange l start l.length).Perm l ∧
          IsHeap (siftUpRange l start l.length) := by
        refine ⟨rlen, rperm, (heapUpTo_iff_isHeap _).mp ?_⟩
        intro c hc0 hcn hcB
        exact rheap c hc0 hcn (by omega)
      split
      next h2048 =>
        split
        next hb => exact rebuild_spec l
        next hb => exact hfin
      next h2048 =>
        split
        next hb => exact rebuild_spec l
        next hb => exact hfin

theorem isHeap_child_le {l : List α} (hl : IsHeap l) {c : ℕ} (hc0 : 0 < c)
    (hcn : c < l.length) : l.getD c default ≤ l.getD ((c - 1) / 2) default :=
  ((heapUpTo_iff_isHeap l).mpr hl) c hc0 hcn (le_of_lt hcn)

theorem isHeap_le_root {l : List α} (hl : IsHeap l) :
    ∀ i, i < l.length → l.getD i default ≤ l.getD 0 default := by
  intro i
  induction i using Nat.strong_induction_on with
  | _ i ih =>
    intro hi
    rcases Nat.eq_zero_or_pos i with h0 | hpos
    · rw [h0]
    · have h1 := isHeap_child_le hl hpos hi
      have h2 := ih ((i - 1) / 2) (by omega) (by omega)
      exact le_trans h1 h2

theorem isHeap_mem_le_root {l : List α} (hl : IsHeap l) {y : α} (hy : y ∈ l) :
    y ≤ l.getD 0 default := by
  obtain ⟨i, hi, hget⟩ := List.mem_iff_getElem.mp hy
  have h1 := isHeap_le_root hl i hi
  rwa [List.getD_eq_getElem l default hi, hget] at h1

/-- `push` on a heap returns a heap holding the old elements plus the new
one. -/
theorem push_spec (cap : ℕ) (l : List α) (x : α) (hl : IsHeap l) :
    ∀ l2, push cap l x = .ok l2 →
      IsHeap l2 ∧ l2.Perm (l ++ [x]) ∧ l2.length = l.length + 1 := by
  intro l2 hok
  by_cases hfull : l.length = cap
  · simp [push, InplaceVec.push, hfull] at hok
  · simp only [push, InplaceVec.push, if_neg hfull, Except.ok.injEq] at hok
    have hplen : (l ++ [x]).length - 1 = l.length := by simp
    rw [hplen] at hok
    obtain ⟨rlen, rperm, rheap⟩ := sift_up_spec (l ++ [x]) l.length (l ++ [x]).length
      (by simp) (by simp)
      (by
        intro c hc0 hcn hcB hcp
        have hcl : c < l.length := by simp at hcn; omega
        have hpl : (c - 1) / 2 < l.length := by omega
        rw [SakRs.getD_append_left _ _ _ hcl, SakRs.getD_append_left _ _ _ hpl]
        exact isHeap_child_le hl hc0 hcl)
      (by
        intro c hc0 hcn hcB hpc
        exfalso
        simp at hcn
        omega)
      (by
        intro c hc0 hcn hcB hpc _
        exfalso
        simp at hcn
        omega)
    rw [hok] at rlen rperm rheap
    refine ⟨?_, rperm, by simp at rlen; omega⟩
    refine (heapUpTo_iff_isHeap _).mp ?_
    intro c hc0 hcn hcB
    refine rheap c hc0 hcn ?_
    simp at rlen ⊢
    omega

/-- `pop` on a non-empty heap returns the root (a maximum element) and leaves
a heap holding exactly the remaining elements. -/
theorem pop_spec (l : List α) (hl : IsHeap l) (hne : l ≠ []) :
    ∃ l2, pop l = some (l.getD 0 default, l2) ∧ IsHeap l2 ∧
      (l.getD 0 default :: l2).Perm l ∧ l2.length = l.length - 1 := by
  have hempty : l.isEmpty = false := by simpa using hne
  have hlpos : 0 < l.length := List.length_pos.mpr hne
  by_cases hrest : l.dropLast.isEmpty
  · -- singleton heap
    have hlen1 : l.length = 1 := by
      have := List.isEmpty_iff.mp hrest
      have hdl : l.dropLast.length = l.length - 1 := List.length_dropLast l
      rw [this] at hdl
      simp at hdl
      omega
    obtain ⟨a, ha⟩ := List.length_eq_one.mp hlen1
    refine ⟨[], ?_, ?_, by rw [ha]; exact List.Perm.refl _, by simp [ha]⟩
    · simp [pop, InplaceVec.pop, ha]
    · intro i hi
      simp at hi
  · -- at least two elements
    have hrne : l.dropLast ≠ [] := by simpa using hrest
    have hrlen : l.dropLast.length = l.length - 1 := List.length_dropLast l
    have hlen2 : 2 ≤ l.length := by
      have := List.length_pos.mpr hrne
      omega
    set item := l.getD (l.length - 1) default with hitem
    set arr := l.dropLast.set 0 item with harr
    have harrlen : arr.length = l.length - 1 := by simp [harr, hrlen]
    obtain ⟨slen, sperm, sheap⟩ := sift_down_to_bottom_spec arr (by omega)
      (by
        intro c hc0 hcn hcpar
        have hcl : c < l.length - 1 := by omega
        have hpl : (c - 1) / 2 < l.length - 1 := by omega
        rw [harr, SakRs.getD_set_ne _ _ (by omega), SakRs.getD_set_ne _ _ (by omega),
          SakRs.getD_dropLast _ _ hcl, SakRs.getD_dropLast _ _ hpl]
        exact isHeap_child_le hl hc0 (by omega))
    refine ⟨sift_down_to_bottom arr 0, ?_, sheap, ?_, by omega⟩
    · have hroot : l.dropLast.getD 0 default = l.getD 0 default :=
        SakRs.getD_dropLast _ _ (by omega)
      simp only [pop, InplaceVec.pop, hempty, Bool.false_eq_true, if_false, hrest,
        ← hitem, ← harr]
      rw [hroot]
    · -- (root :: result) is a permutation of the original heap
      obtain ⟨r0, t, hrt⟩ : ∃ r0 t, l.dropLast = r0 :: t := by
        cases hdl : l.dropLast with
        | nil => exact absurd hdl hrne
        | cons r0 t => exact ⟨r0, t, rfl⟩
      have hr0 : r0 = l.getD 0 default := by
        have := SakRs.getD_dropLast l 0 (by omega)
        rw [hrt] at this
        simpa using this
      have hlast : item = l.getLast hne := by
        rw [List.getLast_eq_getElem, hitem, List.getD_eq_getElem]
      have hl_decomp : l.dropLast ++ [item] = l := by
        rw [hlast]
        exact List.dropLast_append_getLast hne
      have harr_eq : arr = item :: t := by rw [harr, hrt]; rfl
      refine List.Perm.trans (List.Perm.cons _ (sperm.trans (by rw [harr_eq]))) ?_
      have h1 : (item :: t).Perm (t ++ [item]) := (List.perm_append_singleton item t).symm
      refine List.Perm.trans (List.Perm.cons _ h1) ?_
      have hleq : l = r0 :: (t ++ [item]) := by
        conv_lhs => rw [← hl_decomp, hrt]
        exact List.cons_append r0 t [item]
      rw [← hr0, hleq]

/-- `append` leaves two heaps in both the error and the success branch, and
never loses or duplicates elements. -/
theorem append_spec (cap : ℕ) (self other : List α) (h1 : IsHeap self)
    (h2 : IsHeap other) :
    IsHeap (append cap self other).2.1 ∧ IsHeap (append cap self other).2.2 ∧
      ((append cap self other).2.1 ++ (append cap self other).2.2).Perm
        (self ++ other) := by
  have key : ∀ b s : List α, IsHeap b → IsHeap s →
      ∀ res : Except String Unit × List α × List α,
        (match InplaceVec.append cap b s with
          | (.error e, s2, o2) => (Except.error e, s2, o2)
          | (.ok _, s2, o2) => (Except.ok (), rebuild_tail s2 b.length, o2)) = res →
        IsHeap res.2.1 ∧ IsHeap res.2.2 ∧ (res.2.1 ++ res.2.2).Perm (b ++ s) := by
    intro b s hb hs res hres
    by_cases hcap : s.length > cap - b.length
    · simp only [InplaceVec.append, if_pos hcap] at hres
      rw [← hres]
      exact ⟨hb, hs, List.Perm.refl _⟩
    · simp only [InplaceVec.append, if_neg hcap] at hres
      rw [← hres]
      obtain ⟨rlen, rperm, rheap⟩ := rebuild_tail_spec (b ++ s) b.length (by simp)
        (by
          intro c hc0 hcn hcb
          have hpl : (c - 1) / 2 < b.length := by omega
          rw [SakRs.getD_append_left _ _ _ hcb, SakRs.getD_append_left _ _ _ hpl]
          exact isHeap_child_le hb hc0 hcb)
      refine ⟨rheap, ?_, by simpa using rperm⟩
      intro i hi
      simp at hi
  unfold append
  by_cases hlt : self.length < other.length
  · simp only [if_pos hlt]
    obtain ⟨ha, hb2, hp⟩ := key other self h2 h1 _ rfl
    exact ⟨ha, hb2, hp.trans List.perm_append_comm⟩
  · simp only [if_neg hlt]
    exact key self other h1 h2 _ rfl

/-- `retain` with a pure predicate leaves a heap holding the filtered
elements. -/
theorem retain_spec (l : List α) (f : α → Bool) (hl : IsHeap l) :
    IsHeap (retain l f) ∧ (retain l f).Perm (l.filter f) := by
  have hdecomp : l.filter f = l.takeWhile f ++ (l.dropWhile f).filter f := by
    conv_lhs => rw [← List.takeWhile_append_dropWhile f l]
    rw [List.filter_append, List.filter_eq_self.mpr (fun a ha => List.mem_takeWhile_imp ha)]
  obtain ⟨t, ht⟩ := (List.takeWhile_prefix f : l.takeWhile f <+: l)
  have htwlen : (l.takeWhile f).length ≤ l.length := by
    conv_rhs => rw [← ht]
    simp
  have hstart : (l.takeWhile f).length ≤ (l.filter f).length := by
    conv_rhs => rw [hdecomp]
    simp
  obtain ⟨rlen, rperm, rheap⟩ := rebuild_tail_spec (l.filter f) (l.takeWhile f).length
    hstart
    (by
      intro c hc0 hcn hcs
      have hpl : (c - 1) / 2 < (l.takeWhile f).length := by omega
      rw [hdecomp, SakRs.getD_append_left _ _ _ hcs, SakRs.getD_append_left _ _ _ hpl]
      have e1 : (l.takeWhile f).getD c default = l.getD c default := by
        conv_rhs => rw [← ht]
        rw [SakRs.getD_append_left _ _ _ hcs]
      have e2 : (l.takeWhile f).getD ((c - 1) / 2) default = l.getD ((c - 1) / 2) default := by
        conv_rhs => rw [← ht]
        rw [SakRs.getD_append_left _ _ _ hpl]
      rw [e1, e2]
      exact isHeap_child_le hl hc0 (by omega))
  exact ⟨rheap, rperm⟩

/-- Releasing the peek guard after mutating the root restores the heap
invariant by sifting the root down. -/
theorem peekMutRelease_spec (l : List α) (e : α) (hl : IsHeap l) :
    IsHeap (peekMutRelease l e) := by
  unfold peekMutRelease
  split
  next hgt =>
    have hlen : (l.set 0 e).length = l.length := by simp
    obtain ⟨rlen, rperm, rheap⟩ := sift_down_range_spec (l.set 0 e) 0 (by omega)
      (by
        intro c hc0 hcn hcp hcpar
        rw [SakRs.getD_set_ne _ _ (by omega), SakRs.getD_set_ne _ _ (by omega)]
        exact isHeap_child_le hl hc0 (by omega))
    have hsd : sift_down (l.set 0 e) 0
        = sift_down_range (l.set 0 e) 0 (l.set 0 e).length := rfl
    rw [hsd]
    exact (heapFrom_zero_iff_isHeap _).mp rheap
  next hgt =>
    intro i hi
    exact ⟨fun hcon => absurd hcon (by omega), fun hcon => absurd hcon (by omega)⟩

/-- Draining by repeated `pop` yields the stored elements in non-increasing
order. -/
theorem popAllFuel_spec (fuel : ℕ) :
    ∀ l : List α, l.length ≤ fuel → IsHeap l →
      (popAllFuel fuel l).Perm l ∧ List.Pairwise (· ≥ ·) (popAllFuel fuel l) := by
  induction fuel with
  | zero =>
    intro l hlen _
    have : l = [] := by
      cases l with
      | nil => rfl
      | cons a t => simp at hlen
    rw [this]
    exact ⟨List.Perm.refl _, List.Pairwise.nil⟩
  | succ fuel ih =>
    intro l hlen hl
    by_cases hne : l = []
    · rw [hne]
      exact ⟨List.Perm.refl _, List.Pairwise.nil⟩
    · obtain ⟨l2, hpop, hheap2, hperm2, hlen2⟩ := pop_spec l hl hne
      have hstep : popAllFuel (fuel + 1) l = l.getD 0 default :: popAllFuel fuel l2 := by
        rw [popAllFuel, hpop]
      obtain ⟨rperm, rpair⟩ := ih l2 (by omega) hheap2
      rw [hstep]
      constructor
      · exact List.Perm.trans (List.Perm.cons _ rperm) hperm2
      · refine List.Pairwise.cons ?_ rpair
        intro y hy
        have hyl2 : y ∈ l2 := rperm.mem_iff.mp hy
        have hyl : y ∈ l := hperm2.mem_iff.mp (List.mem_cons_of_mem _ hyl2)
        exact isHeap_mem_le_root hl hyl

theorem popAll_spec (l : List α) (hl : IsHeap l) :
    (popAll l).Perm l ∧ List.Pairwise (· ≥ ·) (popAll l) :=
  popAllFuel_spec l.length l (le_refl _) hl

end InplaceHeap

/-- **C1** (confirmed).  Every public heap operation — `push`, `pop`,
`append`, `retain`, and releasing a (possibly mutated) peek guard — preserves
the heap invariant `IsHeap` (stated exactly as in the claim: element `i` is
not less than its present children `2i+1` and `2i+2`); consequently `peek`
returns a maximum element and repeated `pop` drains the stored multiset in
non-increasing order. -/
theorem inplaceHeap_public_ops_preserve_invariant {α : Type} [Inhabited α]
    [LinearOrder α] (cap : ℕ) (l : List α) (hl : InplaceHeap.IsHeap l) :
    (∀ x l2, InplaceHeap.push cap l x = .ok l2 →
      InplaceHeap.IsHeap l2 ∧ l2.Perm (l ++ [x])) ∧
    (∀ v l2, InplaceHeap.pop l = some (v, l2) →
      InplaceHeap.IsHeap l2 ∧ (v :: l2).Perm l ∧ ∀ y ∈ l, y ≤ v) ∧
    (∀ other, InplaceHeap.IsHeap other →
      InplaceHeap.IsHeap (InplaceHeap.append cap l other).2.1 ∧
        InplaceHeap.IsHeap (InplaceHeap.append cap l other).2.2) ∧
    (∀ f, InplaceHeap.IsHeap (InplaceHeap.retain l f)) ∧
    (∀ e, InplaceHeap.IsHeap (InplaceHeap.peekMutRelease l e)) ∧
    (∀ r, InplaceHeap.peek l = some r → ∀ y ∈ l, y ≤ r) ∧
    (InplaceHeap.popAll l).Perm l ∧
    List.Pairwise (· ≥ ·) (InplaceHeap.popAll l) := by
  refine ⟨?_, ?_, ?_, ?_, ?_, ?_, ?_, ?_⟩
  · intro x l2 hok
    obtain ⟨hh, hp, _⟩ := InplaceHeap.push_spec cap l x hl l2 hok
    exact ⟨hh, hp⟩
  · intro v l2 hsome
    have hne : l ≠ [] := by
      intro hnil
      rw [hnil] at hsome
      simp [InplaceHeap.pop, InplaceVec.pop] at hsome
    obtain ⟨l3, hpop, hheap3, hperm3, _⟩ := InplaceHeap.pop_spec l hl hne
    rw [hpop] at hsome
    obtain ⟨hv, hl3⟩ : l.getD 0 default = v ∧ l3 = l2 := by
      have h2 := hsome
      simp only [Option.some.injEq, Prod.mk.injEq] at h2
      exact h2
    rw [← hl3, ← hv]
    refine ⟨hheap3, hperm3, ?_⟩
    intro y hy
    exact InplaceHeap.isHeap_mem_le_root hl hy
  · intro other hother
    obtain ⟨h1, h2, _⟩ := InplaceHeap.append_spec cap l other hl hother
    exact ⟨h1, h2⟩
  · intro f
    exact (InplaceHeap.retain_spec l f hl).1
  · intro e
    exact InplaceHeap.peekMutRelease_spec l e hl
  · intro r hr y hy
    have hrr : r = l.getD 0 default := by
      cases l with
      | nil => simp [InplaceHeap.peek] at hr
      | cons a t =>
        simp [InplaceHeap.peek] at hr
        simp [← hr]
    rw [hrr]
    exact InplaceHeap.isHeap_mem_le_root hl hy
  · exact (InplaceHeap.popAll_spec l hl).1
  · exact (InplaceHeap.popAll_spec l hl).2

/-- Witness for C1 at the concrete heap `[3,1,2]` with capacity 4. -/
theorem inplaceHeap_public_ops_preserve_invariant_witness :
    InplaceHeap.IsHeap ([3, 1, 2] : List ℤ) ∧
      (InplaceHeap.popAll ([3, 1, 2] : List ℤ)).Perm [3, 1, 2] ∧
      List.Pairwise (· ≥ ·) (InplaceHeap.popAll ([3, 1, 2] : List ℤ)) :=
  ⟨by decide,
    (inplaceHeap_public_ops_preserve_invariant 4 [3, 1, 2] (by decide)).2.2.2.2.2.2⟩

namespace InplaceVec

variable {α : Type} [Inhabited α]

theorem retainLoop_spec (f : α → Option Bool) (dropFails : α → Bool) :
    ∀ (rest kept destroyed : List α),
      ∃ s d, (retainLoop f dropFails rest kept destroyed).result = kept ++ s ∧
        (retainLoop f dropFails rest kept destroyed).destroyed = destroyed ++ d ∧
        s.Sublist rest ∧ (d ++ s).Perm rest ∧ d.length + s.length = rest.length := by
  intro rest
  induction rest with
  | nil =>
    intro kept destroyed
    exact ⟨[], [], by simp [retainLoop], by simp [retainLoop],
      List.Sublist.refl _, by simp, by simp⟩
  | cons x rest ih =>
    intro kept destroyed
    cases hf : f x with
    | none =>
      refine ⟨x :: rest, [], ?_, ?_, List.Sublist.refl _, by simp, by simp⟩
      · simp [retainLoop, hf]
      · simp [retainLoop, hf]
    | some b =>
      cases b with
      | true =>
        obtain ⟨s, d, h1, h2, h3, h4, h5⟩ := ih (kept ++ [x]) destroyed
        refine ⟨x :: s, d, ?_, ?_, h3.cons₂ x, ?_, by simp; omega⟩
        · rw [retainLoop]
          simp only [hf]
          rw [h1, List.append_assoc]
          rfl
        · rw [retainLoop]
          simp only [hf]
          exact h2
        · refine List.Perm.trans List.perm_middle ?_
          exact h4.cons x
      | false =>
        by_cases hdf : dropFails x = true
        · refine ⟨rest, [x], ?_, ?_, List.sublist_cons_self x rest, by simp,
            by simp [Nat.add_comm]⟩
          · simp [retainLoop, hf, hdf]
          · simp [retainLoop, hf, hdf]
        · have hdf2 : dropFails x = false := by simpa using hdf
          obtain ⟨s, d, h1, h2, h3, h4, h5⟩ := ih kept (destroyed ++ [x])
          refine ⟨s, x :: d, ?_, ?_, h3.cons x, ?_, by simp; omega⟩
          · rw [retainLoop]
            simp only [hf, hdf2, Bool.false_eq_true, if_false]
            exact h1
          · rw [retainLoop]
            simp only [hf, hdf2, Bool.false_eq_true, if_false]
            rw [h2, List.append_assoc]
            rfl
          · exact h4.cons x

theorem retain_mut_spec (l : List α) (f : α → Option Bool) (dropFails : α → Bool) :
    (retain_mut l f dropFails).result.Sublist l ∧
      ((retain_mut l f dropFails).destroyed ++ (retain_mut l f dropFails).result).Perm l ∧
      (retain_mut l f dropFails).result.length +
        (retain_mut l f dropFails).destroyed.length = l.length := by
  obtain ⟨s, d, h1, h2, h3, h4, h5⟩ := retainLoop_spec f dropFails l [] []
  unfold retain_mut
  rw [h1, h2]
  simp only [List.nil_append]
  exact ⟨h3, h4, by omega⟩

theorem dedupLoop_spec (sb : α → α → Option Bool) (dropFails : α → Bool) :
    ∀ (rest kept destroyed : List α),
      ∃ s d, (dedupLoop sb dropFails rest kept destroyed).result = kept ++ s ∧
        (dedupLoop sb dropFails rest kept destroyed).destroyed = destroyed ++ d ∧
        s.Sublist rest ∧ (d ++ s).Perm rest ∧ d.length + s.length = rest.length := by
  intro rest
  induction rest with
  | nil =>
    intro kept destroyed
    exact ⟨[], [], by simp [dedupLoop], by simp [dedupLoop],
      List.Sublist.refl _, by simp, by simp⟩
  | cons x rest ih =>
    intro kept destroyed
    cases hsb : sb x (kept.getD (kept.length - 1) default) with
    | none =>
      refine ⟨x :: rest, [], ?_, ?_, List.Sublist.refl _, by simp, by simp⟩
      · rw [dedupLoop, hsb]
      · rw [dedupLoop, hsb]
        simp
    | some b =>
      cases b with
      | true =>
        by_cases hdf : dropFails x = true
        · refine ⟨rest, [x], ?_, ?_, List.sublist_cons_self x rest, by simp,
            by simp [Nat.add_comm]⟩
          · rw [dedupLoop, hsb, hdf]
            simp
          · rw [dedupLoop, hsb, hdf]
            simp
        · have hdf2 : dropFails x = false := by simpa using hdf
          obtain ⟨s, d, h1, h2, h3, h4, h5⟩ := ih kept (destroyed ++ [x])
          refine ⟨s, x :: d, ?_, ?_, h3.cons x, ?_, by simp; omega⟩
          · rw [dedupLoop]
            simp only [hsb, hdf2, Bool.false_eq_true, if_false]
            exact h1
          · rw [dedupLoop]
            simp only [hsb, hdf2, Bool.false_eq_true, if_false]
            rw [h2, List.append_assoc]
            rfl
          · exact h4.cons x
      | false =>
        obtain ⟨s, d, h1, h2, h3, h4, h5⟩ := ih (kept ++ [x]) destroyed
        refine ⟨x :: s, d, ?_, ?_, h3.cons₂ x, ?_, by simp; omega⟩
        · rw [dedupLoop]
          simp only [hsb]
          rw [h1, List.append_assoc]
          rfl
        · rw [dedupLoop]
          simp only [hsb]
          exact h2
        · refine List.Perm.trans List.perm_middle ?_
          exact h4.cons x

theorem dedupScan_bounds (sb : α → α → Option Bool) (l : List α) (i : ℕ) :
    ∀ j, dedupScan sb l i = some (some j) → i ≤ j ∧ j < l.length := by
  intro j h
  rw [dedupScan] at h
  split at h
  case isTrue hi =>
    cases hsb : sb (l.getD i default) (l.getD (i - 1) default) with
    | none => rw [hsb] at h; simp at h
    | some b =>
      cases b with
      | true =>
        rw [hsb] at h
        simp at h
        omega
      | false =>
        rw [hsb] at h
        have := dedupScan_bounds sb l (i + 1) j h
        exact ⟨by omega, this.2⟩
  case isFalse hi => simp at h
termination_by l.length - i

theorem dedup_by_spec (l : List α) (sb : α → α → Option Bool)
    (dropFails : α → Bool) :
    (dedup_by l sb dropFails).result.Sublist l ∧
      ((dedup_by l sb dropFails).destroyed ++ (dedup_by l sb dropFails).result).Perm l ∧
      (dedup_by l sb dropFails).result.length +
        (dedup_by l sb dropFails).destroyed.length = l.length := by
  unfold dedup_by
  split
  next hshort => exact ⟨List.Sublist.refl _, by simp, by simp⟩
  next hlong =>
    cases hscan : dedupScan sb l 1 with
    | none =>
      simp only [hscan]
      exact ⟨List.Sublist.refl _, by simp, by simp⟩
    | some o =>
      cases o with
      | none =>
        simp only [hscan]
        exact ⟨List.Sublist.refl _, by simp, by simp⟩
      | some fdi =>
        simp only [hscan]
        obtain ⟨hfd1, hfdlen⟩ := dedupScan_bounds sb l 1 fdi hscan
        have hdec : l.take fdi ++ l.getD fdi default :: l.drop (fdi + 1) = l := by
          conv_rhs => rw [← List.take_append_drop fdi l]
          congr 1
          rw [List.getD_eq_getElem l default hfdlen]
          exact (List.drop_eq_getElem_cons hfdlen).symm
        have hpl : (l.take fdi ++ l.getD fdi default :: l.drop (fdi + 1)).Perm l := by
          rw [hdec]
        split
        next hdf =>
          refine ⟨?_, ?_, ?_⟩
          · show (l.take fdi ++ l.drop (fdi + 1)).Sublist l
            conv_rhs => rw [← hdec]
            exact (List.sublist_cons_self _ _).append_left (l.take fdi)
          · show (l.getD fdi default :: (l.take fdi ++ l.drop (fdi + 1))).Perm l
            exact List.Perm.trans List.perm_middle.symm hpl
          · simp
            omega
        next hdf =>
          obtain ⟨s, d, h1, h2, h3, h4, h5⟩ :=
            dedupLoop_spec sb dropFails (l.drop (fdi + 1)) (l.take fdi)
              [l.getD fdi default]
          rw [h1, h2]
          refine ⟨?_, ?_, ?_⟩
          · conv_rhs => rw [← hdec]
            exact (h3.cons _).append_left (l.take fdi)
          · have hcomm : (d ++ (l.take fdi ++ s)).Perm (l.take fdi ++ (d ++ s)) := by
              rw [← List.append_assoc, ← List.append_assoc]
              exact List.perm_append_comm.append_right s
            have hds : (l.take fdi ++ (d ++ s)).Perm (l.take fdi ++ l.drop (fdi + 1)) :=
              h4.append_left (l.take fdi)
            have hmid : (l.getD fdi default :: (l.take fdi ++ l.drop (fdi + 1))).Perm
                (l.take fdi ++ l.getD fdi default :: l.drop (fdi + 1)) :=
              List.perm_middle.symm
            exact ((hcomm.trans hds).cons _).trans (hmid.trans hpl)
          · simp at h5 ⊢
            omega

end InplaceVec

/-- **C6** (corrected).  Abrupt-failure safety of `retain_mut` and `dedup_by`:
for every run — including runs where the predicate, the `same_bucket`
comparator, or an element's own teardown fails abruptly mid-scan — no element
is destroyed twice and none is lost or duplicated (the destroyed elements and
the surviving elements together are a permutation of the original contents),
the surviving elements are a sublist of the original order (kept elements are
preserved in place and the untouched tail is shifted over the gap), and the
final length is the original length MINUS the number of elements actually
destroyed.  (The claim as frozen instead says the final `len()` equals the
count of destroyed elements, which is false; see the counterexample.) -/
theorem inplaceVec_retain_dedup_failure_safety {α : Type} [Inhabited α]
    (l : List α) (f : α → Option Bool) (sb : α → α → Option Bool)
    (dropFails : α → Bool) :
    ((InplaceVec.retain_mut l f dropFails).result.Sublist l ∧
      ((InplaceVec.retain_mut l f dropFails).destroyed ++
        (InplaceVec.retain_mut l f dropFails).result).Perm l ∧
      (InplaceVec.retain_mut l f dropFails).result.length =
        l.length - (InplaceVec.retain_mut l f dropFails).destroyed.length) ∧
    ((InplaceVec.dedup_by l sb dropFails).result.Sublist l ∧
      ((InplaceVec.dedup_by l sb dropFails).destroyed ++
        (InplaceVec.dedup_by l sb dropFails).result).Perm l ∧
      (InplaceVec.dedup_by l sb dropFails).result.length =
        l.length - (InplaceVec.dedup_by l sb dropFails).destroyed.length) := by
  obtain ⟨r1, r2, r3⟩ := InplaceVec.retain_mut_spec l f dropFails
  obtain ⟨d1, d2, d3⟩ := InplaceVec.dedup_by_spec l sb dropFails
  exact ⟨⟨r1, r2, by omega⟩, ⟨d1, d2, by omega⟩⟩

/-- **C6** counterexample to the claim as frozen: on `[1,2,3,4,5]`, delete `1`
(teardown succeeds), then the predicate fails abruptly at `2`.  Exactly one
element was destroyed, and the restoration step leaves the vector holding
`[2,3,4,5]` with `len() = 4 ≠ 1`: the final length is not the count of
destroyed elements. -/
theorem inplaceVec_retain_len_neq_destroyed_counterexample :
    (InplaceVec.retain_mut ([1, 2, 3, 4, 5] : List ℤ)
        (fun x => if x = 1 then some false else if x = 2 then none else some true)
        (fun _ => false)).result = [2, 3, 4, 5] ∧
      (InplaceVec.retain_mut ([1, 2, 3, 4, 5] : List ℤ)
        (fun x => if x = 1 then some false else if x = 2 then none else some true)
        (fun _ => false)).destroyed = [1] ∧
      (4 : ℕ) ≠ 1 := by
  refine ⟨?_, ?_, by decide⟩ <;> rfl

/-- **C5** (code bug).  The peek guard's release calls
`self.heap.data.set_len(original_len.get())`, whose documented precondition is
`new_len ≤ capacity()` but whose executed assertion is
`debug_assert!(new_len < self.capacity())`.  For a full heap (`len = N = 2`,
e.g. the heap `[2,1]`), `deref_mut` records `original_len = 2` and the release
asserts `2 < 2`, which fails even though the documented precondition `2 ≤ 2`
holds — so releasing the guard aborts a debug build on well-formed input. -/
theorem inplaceHeap_peekMut_release_assert_fails_on_full_heap :
    InplaceHeap.peekMutDerefMutOriginalLen ([2, 1] : List ℤ) = some 2 ∧
      InplaceVec.set_len_doc_precondition 2 2 ∧
      InplaceVec.set_len_debug_assert 2 2 = false := by
  exact ⟨rfl, le_refl 2, rfl⟩

/-- **C10** (confirmed).  `InplaceHeap::append` swaps the two heaps (merging
the smaller into the larger) before the capacity check performed inside
`InplaceVec::append`; when the combined length exceeds the capacity the error
is returned with the two heaps' contents exchanged. -/
theorem inplaceHeap_append_not_atomic {α : Type} [Inhabited α] [LinearOrder α]
    (cap : ℕ) (self other : List α)
    (hself : self.length ≤ cap) (hother : other.length ≤ cap)
    (hlt : self.length < other.length)
    (hcap : cap < self.length + other.length) :
    InplaceHeap.append cap self other = (.error "capacity exceeded", other, self) := by
  have hchk : self.length > cap - other.length := by omega
  simp [InplaceHeap.append, InplaceVec.append, hlt, hchk]

/-- Witness for C10: two heaps of sizes 1 and 2 in capacity 2; the failed
`append` leaves them exchanged. -/
theorem inplaceHeap_append_not_atomic_witness :
    ([1] : List ℤ).length ≤ 2 ∧ ([3, 2] : List ℤ).length ≤ 2 ∧
      ([1] : List ℤ).length < ([3, 2] : List ℤ).length ∧
      2 < ([1] : List ℤ).length + ([3, 2] : List ℤ).length ∧
      InplaceHeap.append 2 ([1] : List ℤ) [3, 2]
        = (.error "capacity exceeded", [3, 2], [1]) :=
  ⟨by decide, by decide, by decide, by decide,
    inplaceHeap_append_not_atomic 2 [1] [3, 2] (by decide) (by decide) (by decide)
      (by decide)⟩

/-- **C2** (code bug).  `InplaceVec::remove` forgets to decrement `self.len`
(compare `swap_remove`, which does).  On the vector `[1,2,3]`, `remove 0`
returns the removed element `1` but leaves the live region at length 3,
now holding `[2,3,3]` — the claim requires length 2 holding `[2,3]`. -/
theorem inplaceVec_remove_keeps_stale_length :
    InplaceVec.remove ([1, 2, 3] : List ℤ) 0 = .ok (1, [2, 3, 3]) ∧
      ((2 : ℤ) :: [3, 3]).length = 3 := by
  constructor
  · rfl
  · rfl

/-- **C3** (code bug).  `InplaceVec::truncate` destroys the slice
`buf[len..(self.len - len)]` instead of `buf[len..self.len]`.  On a vector of
five elements, `truncate 2` destroys only the element at index 2 (the slice
`[2..3)`), leaking the elements at indices 3 and 4; the claim requires the
elements `[3,4,5]` at indices 2..5 to be destroyed. -/
theorem inplaceVec_truncate_drops_wrong_range :
    InplaceVec.truncate ([1, 2, 3, 4, 5] : List ℤ) 2 = ([1, 2], [3]) ∧
      ([3] : List ℤ) ≠ [3, 4, 5] := by
  constructor
  · rfl
  · decide

namespace SakRs

variable {α : Type} [Inhabited α]

theorem list_ext_getD (l1 l2 : List α) (hlen : l1.length = l2.length)
    (h : ∀ i < l1.length, l1.getD i default = l2.getD i default) : l1 = l2 := by
  apply List.ext_getElem hlen
  intro i h1 h2
  have h3 := h i h1
  rwa [List.getD_eq_getElem _ _ h1, List.getD_eq_getElem _ _ h2] at h3

/-- `x % N` written without a modulus, for `x < 2N`. -/
theorem mod_two_cases (N x : ℕ) (hx : x < 2 * N) :
    x % N = if x < N then x else x - N := by
  split
  next h => exact Nat.mod_eq_of_lt h
  next h =>
    have hN : 0 < N := by omega
    rw [Nat.mod_eq_sub_mod (by omega), Nat.mod_eq_of_lt (by omega)]

theorem phys_inj (N a : ℕ) {i j : ℕ} (hi : i < N) (hj : j < N)
    (h : (a + i) % N = (a + j) % N) : i = j := by
  have hm : Nat.ModEq N (a + i) (a + j) := h
  have h2 : Nat.ModEq N i j := (Nat.ModEq.refl a).add_left_cancel hm
  have h3 : i % N = j % N := h2
  rwa [Nat.mod_eq_of_lt hi, Nat.mod_eq_of_lt hj] at h3

end SakRs

namespace InplaceDeque

variable {α : Type} [Inhabited α]

theorem wrap_index_eq_mod (cap i : ℕ) (hi : i < 2 * cap) :
    wrap_index cap i = i % cap := by
  unfold wrap_index
  split
  next hpow =>
    obtain ⟨k, _, hek⟩ : ∃ k < cap + 1, cap = 2 ^ k := by
      simpa [isPow2] using hpow
    subst hek
    exact Nat.and_pow_two_sub_one_eq_mod i k
  next hpow =>
    split
    next hge =>
      rw [Nat.mod_eq_sub_mod (by omega), Nat.mod_eq_of_lt (by omega)]
    next hlt => rw [Nat.mod_eq_of_lt (by omega)]

@[simp]
theorem toList_length (d : InplaceDeque α) : (toList d).length = d.len := by
  simp [toList]

theorem toList_getD (d : InplaceDeque α) (i : ℕ) (hi : i < d.len) :
    (toList d).getD i default = d.buf.getD ((d.head + i) % d.capacity) default := by
  unfold toList
  have hlen : i < ((List.range d.len).map fun i =>
      d.buf.getD ((d.head + i) % d.capacity) default).length := by simpa using hi
  rw [List.getD_eq_getElem _ _ hlen, List.getElem_map, List.getElem_range]

end InplaceDeque

/-- **C4** (code bug).  `InplaceDeque::remove` computes
`front_len = self.len` instead of `index`, so `back_len < front_len` always
holds and the elements after `index` are always the ones shifted, with `head`
unchanged.  On the deque `[1,2,3,4,5]` (head 0, len 5), `remove(0)` has
`i = 0 < len-1-i = 4`, so the claim requires the `i = 0` elements before the
position to be moved and the head to advance to 1; the code instead moves the
4 elements after position 0 (more than `len/2`, violating the code's own
safety comment on the `wrap_copy` length) and leaves `head = 0`. -/
theorem inplaceDeque_remove_always_shifts_back :
    InplaceDeque.remove (⟨[1, 2, 3, 4, 5], 0, 5⟩ : InplaceDeque ℤ) 0
      = some (1, ⟨[2, 3, 4, 5, 5], 0, 4⟩) ∧
      (0 : ℕ) < 5 - 1 - 0 ∧
      (⟨[2, 3, 4, 5, 5], 0, 4⟩ : InplaceDeque ℤ).head ≠ 1 := by
  refine ⟨by decide, by decide, by decide⟩

namespace InplaceDeque

variable {α : Type} [Inhabited α]

theorem push_back_toList (d : InplaceDeque α) (hwf : WF d)
    (hnf : d.len ≠ d.capacity) (v : α) :
    ∃ d2, push_back d v = Except.ok d2 ∧ d2.head = d.head ∧ d2.len = d.len + 1 ∧
      d2.capacity = d.capacity ∧ WF d2 ∧ toList d2 = toList d ++ [v] := by
  have hlen : d.len < d.capacity := lt_of_le_of_ne hwf.2 hnf
  have hN : 0 < d.capacity := by omega
  have hhead : d.head < d.capacity := by
    rcases hwf.1 with h | h
    · exact h
    · omega
  have hP : d.to_physical_index d.len = (d.head + d.len) % d.capacity := by
    rw [to_physical_index, wrap_add, wrap_index_eq_mod]
    omega
  refine ⟨{ d with buf := d.buf.set (d.to_physical_index d.len) v, len := d.len + 1 },
    by rw [push_back, if_neg hnf], rfl, rfl, by simp [capacity], ?_, ?_⟩
  · constructor
    · left
      simpa [capacity] using hhead
    · simpa [capacity] using hlen
  · apply SakRs.list_ext_getD
    · simp
    · intro i hi
      simp only [toList_length] at hi
      rw [toList_getD _ i hi]
      simp only [capacity, List.length_set]
      rw [show d.buf.length = d.capacity from rfl]
      by_cases hcase : i < d.len
      · rw [hP, SakRs.getD_set_ne]
        · rw [SakRs.getD_append_left _ _ _ (by simpa using hcase),
            toList_getD d i hcase]
        · intro heq
          have hij := SakRs.phys_inj d.capacity d.head hlen
            (lt_trans hcase hlen) heq
          omega
      · have hieq : i = d.len := by omega
        subst hieq
        rw [hP, SakRs.getD_set_self]
        · have h2 := SakRs.getD_concat_self (toList d) v
          rw [toList_length] at h2
          exact h2.symm
        · show _ < d.capacity
          exact Nat.mod_lt _ hN

theorem pop_front_toList (d : InplaceDeque α) (hwf : WF d) (hne : d.len ≠ 0) :
    ∃ v d2, pop_front d = some (v, d2) ∧ d2.buf = d.buf ∧ d2.len = d.len - 1 ∧
      d2.capacity = d.capacity ∧ WF d2 ∧ toList d = v :: toList d2 := by
  have hN : 0 < d.capacity := by have := hwf.2; omega
  have hhead : d.head < d.capacity := by
    rcases hwf.1 with h | h
    · exact h
    · omega
  have hP : d.to_physical_index 1 = (d.head + 1) % d.capacity := by
    rw [to_physical_index, wrap_add, wrap_index_eq_mod]
    omega
  refine ⟨d.buf.getD d.head default,
    { d with head := d.to_physical_index 1, len := d.len - 1 },
    by rw [pop_front, if_neg hne], rfl, rfl, rfl, ?_, ?_⟩
  · constructor
    · left
      show d.to_physical_index 1 < d.capacity
      rw [hP]
      exact Nat.mod_lt _ hN
    · show d.len - 1 ≤ d.capacity
      have := hwf.2
      omega
  · apply SakRs.list_ext_getD
    · simp
      omega
    · intro i hi
      simp only [toList_length] at hi
      rw [toList_getD d i hi]
      cases i with
      | zero =>
        rw [List.getD_cons_zero, Nat.add_zero, Nat.mod_eq_of_lt hhead]
      | succ j =>
        rw [List.getD_cons_succ]
        have hj : j < d.len - 1 := by omega
        rw [toList_getD _ j hj]
        show d.buf.getD ((d.head + (j + 1)) % d.capacity) default
          = d.buf.getD ((d.to_physical_index 1 + j) % d.capacity) default
        rw [hP]
        have harith : d.head + (j + 1) = d.head + 1 + j := by omega
        rw [harith, Nat.mod_add_mod]

theorem push_front_toList (d : InplaceDeque α) (hwf : WF d)
    (hnf : d.len ≠ d.capacity) (v : α) :
    ∃ d2, push_front d v = Except.ok d2 ∧ d2.len = d.len + 1 ∧
      d2.capacity = d.capacity ∧ WF d2 ∧ toList d2 = v :: toList d := by
  have hlen : d.len < d.capacity := lt_of_le_of_ne hwf.2 hnf
  have hN : 0 < d.capacity := by omega
  have hhead : d.head < d.capacity := by
    rcases hwf.1 with h | h
    · exact h
    · omega
  have hh2 : d.wrap_sub d.head 1 = (d.head + d.capacity - 1) % d.capacity := by
    rw [wrap_sub, wrap_index_eq_mod]
    omega
  have hh2lt : d.wrap_sub d.head 1 < d.capacity := by
    rw [hh2]
    exact Nat.mod_lt _ hN
  refine ⟨{ d with buf := d.buf.set (d.wrap_sub d.head 1) v, head := d.wrap_sub d.head 1, len := d.len + 1 },
    by simp only [push_front]; rw [if_neg hnf], rfl, by simp [capacity], ?_, ?_⟩
  · constructor
    · left
      simpa [capacity] using hh2lt
    · simpa [capacity] using hlen
  · apply SakRs.list_ext_getD
    · simp
    · intro i hi
      simp only [toList_length] at hi
      rw [toList_getD _ i hi]
      simp only [capacity, List.length_set]
      rw [show d.buf.length = d.capacity from rfl]
      cases i with
      | zero =>
        rw [List.getD_cons_zero, Nat.add_zero, Nat.mod_eq_of_lt hh2lt,
          SakRs.getD_set_self]
        show _ < d.capacity
        exact hh2lt
      | succ j =>
        rw [List.getD_cons_succ]
        have hj : j < d.len := by omega
        have hslot : (d.wrap_sub d.head 1 + (j + 1)) % d.capacity
            = (d.head + j) % d.capacity := by
          rw [hh2, Nat.mod_add_mod]
          have harith : d.head + d.capacity - 1 + (j + 1)
              = d.capacity + (d.head + j) := by omega
          rw [harith, Nat.add_mod_left]
        rw [hslot, SakRs.getD_set_ne, toList_getD d j hj]
        intro heq
        rw [hh2] at heq
        have hmm : (d.head + (d.capacity - 1)) % d.capacity
            = (d.head + j) % d.capacity := by
          have harith2 : d.head + d.capacity - 1 = d.head + (d.capacity - 1) := by
            omega
          rw [← harith2, heq]
        have hij := SakRs.phys_inj d.capacity d.head (by omega)
          (lt_trans hj hlen) hmm
        omega

theorem pop_back_toList (d : InplaceDeque α) (hwf : WF d) (hne : d.len ≠ 0) :
    ∃ v d2, pop_back d = some (v, d2) ∧ d2.buf = d.buf ∧ d2.head = d.head ∧
      d2.len = d.len - 1 ∧ d2.capacity = d.capacity ∧ WF d2 ∧
      toList d = toList d2 ++ [v] := by
  have hN : 0 < d.capacity := by have := hwf.2; omega
  have hhead : d.head < d.capacity := by
    rcases hwf.1 with h | h
    · exact h
    · omega
  have hP : d.to_physical_index (d.len - 1)
      = (d.head + (d.len - 1)) % d.capacity := by
    rw [to_physical_index, wrap_add, wrap_index_eq_mod]
    have := hwf.2
    omega
  refine ⟨d.buf.getD (d.to_physical_index (d.len - 1)) default,
    { d with len := d.len - 1 },
    by rw [pop_back, if_neg hne], rfl, rfl, rfl, rfl, ?_, ?_⟩
  · exact ⟨hwf.1, by show d.len - 1 ≤ d.capacity; have := hwf.2; omega⟩
  · apply SakRs.list_ext_getD
    · simp
      omega
    · intro i hi
      simp only [toList_length] at hi
      rw [toList_getD d i hi]
      by_cases hcase : i < d.len - 1
      · rw [SakRs.getD_append_left _ _ _ (by simpa using hcase),
          toList_getD _ i hcase]
        rfl
      · have hieq : i = d.len - 1 := by omega
        subst hieq
        have h2 := SakRs.getD_concat_self
          (toList { d with len := d.len - 1 })
          (d.buf.getD (d.to_physical_index (d.len - 1)) default)
        rw [toList_length] at h2
        show d.buf.getD ((d.head + (d.len - 1)) % d.capacity) default = _
        rw [h2, hP]

theorem runFB_spec (ops : List (QOp α)) : ∀ d : InplaceDeque α, WF d →
    WF (runFB d ops).1 ∧ (runFB d ops).1.capacity = d.capacity ∧
      (runFB d ops).2.2 ++ toList (runFB d ops).1 = toList d ++ (runFB d ops).2.1 := by
  induction ops with
  | nil =>
    intro d hwf
    simpa [runFB] using hwf
  | cons op ops ih =>
    intro d hwf
    cases op with
    | push v =>
      by_cases hfull : d.len = d.capacity
      · have hpb : push_back d v = Except.error v := by
          rw [push_back, if_pos hfull]
        simp only [runFB, hpb]
        exact ih d hwf
      · obtain ⟨d2, hok, _, _, hc, hwf2, htl⟩ := push_back_toList d hwf hfull v
        simp only [runFB, hok]
        obtain ⟨h1, h2, h3⟩ := ih d2 hwf2
        refine ⟨h1, by rw [h2, hc], ?_⟩
        rw [h3, htl]
        simp
    | pop =>
      by_cases hemp : d.len = 0
      · have hpf : pop_front d = none := by rw [pop_front, if_pos hemp]
        simp only [runFB, hpf]
        exact ih d hwf
      · obtain ⟨v, d2, hsome, _, _, hc, hwf2, htl⟩ := pop_front_toList d hwf hemp
        simp only [runFB, hsome]
        obtain ⟨h1, h2, h3⟩ := ih d2 hwf2
        refine ⟨h1, by rw [h2, hc], ?_⟩
        rw [htl]
        simp only [List.cons_append]
        rw [h3]

theorem runBF_spec (ops : List (QOp α)) : ∀ d : InplaceDeque α, WF d →
    WF (runBF d ops).1 ∧ (runBF d ops).1.capacity = d.capacity ∧
      (runBF d ops).2.2 ++ (toList (runBF d ops).1).reverse
        = (toList d).reverse ++ (runBF d ops).2.1 := by
  induction ops with
  | nil =>
    intro d hwf
    simpa [runBF] using hwf
  | cons op ops ih =>
    intro d hwf
    cases op with
    | push v =>
      by_cases hfull : d.len = d.capacity
      · have hpb : push_front d v = Except.error v := by
          simp only [push_front]
          rw [if_pos hfull]
        simp only [runBF, hpb]
        exact ih d hwf
      · obtain ⟨d2, hok, _, hc, hwf2, htl⟩ := push_front_toList d hwf hfull v
        simp only [runBF, hok]
        obtain ⟨h1, h2, h3⟩ := ih d2 hwf2
        refine ⟨h1, by rw [h2, hc], ?_⟩
        have hrev : (toList d2).reverse = (toList d).reverse ++ [v] := by
          rw [htl]
          simp
        rw [h3, hrev]
        simp
    | pop =>
      by_cases hemp : d.len = 0
      · have hpb : pop_back d = none := by rw [pop_back, if_pos hemp]
        simp only [runBF, hpb]
        exact ih d hwf
      · obtain ⟨v, d2, hsome, _, _, _, hc, hwf2, htl⟩ := pop_back_toList d hwf hemp
        simp only [runBF, hsome]
        obtain ⟨h1, h2, h3⟩ := ih d2 hwf2
        refine ⟨h1, by rw [h2, hc], ?_⟩
        have hrev : (toList d).reverse = v :: (toList d2).reverse := by
          rw [htl]
          simp
        rw [hrev]
        simp only [List.cons_append]
        rw [h3]

end InplaceDeque

/-- **C8**: starting from an empty bounded ring deque, for every interleaving
of `push_back`/`pop_front` operations (and symmetrically for the
`push_front`/`pop_back` mirror), the popped values followed by the values
still enqueued equal the accepted pushes in push order — so once the deque is
emptied the pop sequence equals the push sequence exactly — and after the run
`len()` equals successful pushes minus successful pops and never exceeds the
capacity `N`, regardless of physical wraparound. -/
theorem inplaceDeque_fifo_interleaving (α : Type) [Inhabited α]
    (d0 : InplaceDeque α) (hwf : InplaceDeque.WF d0) (h0 : d0.len = 0)
    (ops : List (QOp α)) :
    ((InplaceDeque.runFB d0 ops).2.2
        ++ InplaceDeque.toList (InplaceDeque.runFB d0 ops).1
        = (InplaceDeque.runFB d0 ops).2.1 ∧
      ((InplaceDeque.runFB d0 ops).1.len = 0 →
        (InplaceDeque.runFB d0 ops).2.2 = (InplaceDeque.runFB d0 ops).2.1) ∧
      (InplaceDeque.runFB d0 ops).2.2.length + (InplaceDeque.runFB d0 ops).1.len
        = (InplaceDeque.runFB d0 ops).2.1.length ∧
      (InplaceDeque.runFB d0 ops).1.len ≤ d0.capacity) ∧
    ((InplaceDeque.runBF d0 ops).2.2
        ++ (InplaceDeque.toList (InplaceDeque.runBF d0 ops).1).reverse
        = (InplaceDeque.runBF d0 ops).2.1 ∧
      ((InplaceDeque.runBF d0 ops).1.len = 0 →
        (InplaceDeque.runBF d0 ops).2.2 = (InplaceDeque.runBF d0 ops).2.1) ∧
      (InplaceDeque.runBF d0 ops).2.2.length + (InplaceDeque.runBF d0 ops).1.len
        = (InplaceDeque.runBF d0 ops).2.1.length ∧
      (InplaceDeque.runBF d0 ops).1.len ≤ d0.capacity) := by
  have h0l : InplaceDeque.toList d0 = [] := by
    simp [InplaceDeque.toList, h0]
  obtain ⟨hw1, hc1, he1⟩ := InplaceDeque.runFB_spec ops d0 hwf
  obtain ⟨hw2, hc2, he2⟩ := InplaceDeque.runBF_spec ops d0 hwf
  rw [h0l] at he1 he2
  simp only [List.nil_append, List.reverse_nil] at he1 he2
  constructor
  · refine ⟨he1, ?_, ?_, ?_⟩
    · intro hz
      have hnil : InplaceDeque.toList (InplaceDeque.runFB d0 ops).1 = [] := by
        have hl := InplaceDeque.toList_length (InplaceDeque.runFB d0 ops).1
        rw [hz] at hl
        exact List.length_eq_zero.mp hl
      rw [← he1, hnil, List.append_nil]
    · have hlg := congrArg List.length he1
      simpa using hlg
    · rw [← hc1]
      exact hw1.2
  · refine ⟨he2, ?_, ?_, ?_⟩
    · intro hz
      have hnil : InplaceDeque.toList (InplaceDeque.runBF d0 ops).1 = [] := by
        have hl := InplaceDeque.toList_length (InplaceDeque.runBF d0 ops).1
        rw [hz] at hl
        exact List.length_eq_zero.mp hl
      rw [← he2, hnil]
      simp
    · have hlg := congrArg List.length he2
      simpa using hlg
    · rw [← hc2]
      exact hw2.2

/-- Witness for C8 at a concrete input: capacity-3 deque, six operations
ending empty, so the pop sequence equals the push sequence. -/
theorem inplaceDeque_fifo_interleaving_witness :
    InplaceDeque.WF (⟨[0, 0, 0], 0, 0⟩ : InplaceDeque ℤ) ∧
    (⟨[0, 0, 0], 0, 0⟩ : InplaceDeque ℤ).len = 0 ∧
    (InplaceDeque.runFB (⟨[0, 0, 0], 0, 0⟩ : InplaceDeque ℤ)
        [QOp.push 1, QOp.push 2, QOp.pop, QOp.push 3, QOp.pop, QOp.pop]).2.2
      = (InplaceDeque.runFB (⟨[0, 0, 0], 0, 0⟩ : InplaceDeque ℤ)
        [QOp.push 1, QOp.push 2, QOp.pop, QOp.push 3, QOp.pop, QOp.pop]).2.1 := by
  refine ⟨⟨Or.inl (by decide), by decide⟩, rfl, ?_⟩
  have h := inplaceDeque_fifo_interleaving ℤ ⟨[0, 0, 0], 0, 0⟩
    ⟨Or.inl (by decide), by decide⟩ rfl
    [QOp.push 1, QOp.push 2, QOp.pop, QOp.push 3, QOp.pop, QOp.pop]
  exact h.1.2.1 (by decide)

namespace InplaceDeque

variable {α : Type} [Inhabited α]

/-- Pointwise correctness of `wrap_copy` under the source's debug-asserted
precondition `min(abs_diff(src, dst), CAPACITY - abs_diff(src, dst)) + len ≤
CAPACITY`: the destination run receives the source run's original values and
every slot outside the destination run is untouched; `head` and `len` are not
modified. -/
theorem wrap_copy_spec (d : InplaceDeque α) (src dst len : ℕ)
    (hsrc : src < d.capacity) (hdst : dst < d.capacity) (hlen : len ≤ d.capacity)
    (hpre : min (max src dst - min src dst)
        (d.capacity - (max src dst - min src dst)) + len ≤ d.capacity) :
    (wrap_copy d src dst len).head = d.head ∧
    (wrap_copy d src dst len).len = d.len ∧
    (wrap_copy d src dst len).capacity = d.capacity ∧
    (∀ k < len, (wrap_copy d src dst len).buf.getD ((dst + k) % d.capacity) default
      = d.buf.getD ((src + k) % d.capacity) default) ∧
    (∀ p < d.capacity, (∀ k < len, p ≠ (dst + k) % d.capacity) →
      (wrap_copy d src dst len).buf.getD p default = d.buf.getD p default) := by
  have hbl : d.buf.length = d.capacity := rfl
  have hN : 0 < d.capacity := by omega
  by_cases htriv : src = dst ∨ len = 0
  · have he : wrap_copy d src dst len = d := by
      simp only [wrap_copy, if_pos htriv]
    rw [he]
    refine ⟨rfl, rfl, rfl, ?_, fun p hp hp2 => rfl⟩
    intro k hk
    rcases htriv with h | h
    · rw [h]
    · omega
  · have hsd : src ≠ dst := fun h => htriv (Or.inl h)
    have hlen0 : len ≠ 0 := fun h => htriv (Or.inr h)
    have hws : d.wrap_sub dst src
        = if src ≤ dst then dst - src else dst + d.capacity - src := by
      rw [wrap_sub, wrap_index_eq_mod _ _ (by omega),
        SakRs.mod_two_cases _ _ (by omega)]
      split
      next h => rw [if_neg (by omega)]
      next h => rw [if_pos (by omega)]; omega
    simp only [wrap_copy, if_neg htriv, copy, copy_nonoverlapping]
    split
    -- case (_, false, false): one linear copy
    next hb2 hb3 =>
      have h2 : ¬(d.capacity - src < len) := of_decide_eq_false hb2
      have h3 : ¬(d.capacity - dst < len) := of_decide_eq_false hb3
      refine ⟨rfl, rfl, by simp [capacity], ?_, ?_⟩
      · intro k hk
        have hdk : (dst + k) % d.capacity = dst + k := Nat.mod_eq_of_lt (by omega)
        have hsk : (src + k) % d.capacity = src + k := Nat.mod_eq_of_lt (by omega)
        rw [hdk, hsk,
          SakRs.getD_listCopy _ _ _ _ _ (by simp only [hbl]; omega),
          if_pos (by omega)]
        congr 1
        omega
      · intro p hp hp2
        rw [SakRs.getD_listCopy _ _ _ _ _ (by simp only [hbl]; omega),
          if_neg (fun hc => hp2 (p - dst) (by omega)
            (by have h5 : dst + (p - dst) = p := by omega
                rw [h5, Nat.mod_eq_of_lt hp]))]
    -- case (false, false, true): dst wraps, two copies, in-order
    next hb1 hb2 hb3 =>
      have h1 : ¬(d.wrap_sub dst src < len) := of_decide_eq_false hb1
      have h2 : ¬(d.capacity - src < len) := of_decide_eq_false hb2
      have h3 : d.capacity - dst < len := of_decide_eq_true hb3
      have hslt : src < dst := by omega
      have hwv : ¬(dst - src < len) := by
        rw [hws, if_pos (by omega)] at h1
        exact h1
      refine ⟨rfl, rfl, by simp [capacity], ?_, ?_⟩
      · intro k hk
        by_cases hks : k < d.capacity - dst
        · have hdk : (dst + k) % d.capacity = dst + k := Nat.mod_eq_of_lt (by omega)
          have hsk : (src + k) % d.capacity = src + k := Nat.mod_eq_of_lt (by omega)
          rw [hdk, hsk,
            SakRs.getD_listCopy _ _ _ _ _
              (by simp only [SakRs.length_listCopy, hbl]; omega),
            if_neg (by omega),
            SakRs.getD_listCopy _ _ _ _ _ (by simp only [hbl]; omega),
            if_pos (by omega)]
          congr 1
          omega
        · have hdk : (dst + k) % d.capacity = dst + k - d.capacity := by
            rw [SakRs.mod_two_cases _ _ (by omega), if_neg (by omega)]
          have hsk : (src + k) % d.capacity = src + k := Nat.mod_eq_of_lt (by omega)
          rw [hdk, hsk,
            SakRs.getD_listCopy _ _ _ _ _
              (by simp only [SakRs.length_listCopy, hbl]; omega),
            if_pos (by omega),
            SakRs.getD_listCopy _ _ _ _ _ (by simp only [hbl]; omega),
            if_neg (by omega)]
          congr 1
          omega
      · intro p hp hp2
        rw [SakRs.getD_listCopy _ _ _ _ _
            (by simp only [SakRs.length_listCopy, hbl]; omega),
          if_neg (fun hc => hp2 (d.capacity - dst + p) (by omega)
            (by have h5 : dst + (d.capacity - dst + p) = d.capacity + p := by omega
                rw [h5, Nat.add_mod_left, Nat.mod_eq_of_lt hp])),
          SakRs.getD_listCopy _ _ _ _ _ (by simp only [hbl]; omega),
          if_neg (fun hc => hp2 (p - dst) (by omega)
            (by have h5 : dst + (p - dst) = p := by omega
                rw [h5, Nat.mod_eq_of_lt hp]))]
    -- case (true, false, true): dst wraps, two copies, reverse order
    next hb1 hb2 hb3 =>
      have h1 : d.wrap_sub dst src < len := of_decide_eq_true hb1
      have h2 : ¬(d.capacity - src < len) := of_decide_eq_false hb2
      have h3 : d.capacity - dst < len := of_decide_eq_true hb3
      have hslt : src < dst := by omega
      have hwv : dst - src < len := by
        rw [hws, if_pos (by omega)] at h1
        exact h1
      refine ⟨rfl, rfl, by simp [capacity], ?_, ?_⟩
      · intro k hk
        by_cases hks : k < d.capacity - dst
        · have hdk : (dst + k) % d.capacity = dst + k := Nat.mod_eq_of_lt (by omega)
          have hsk : (src + k) % d.capacity = src + k := Nat.mod_eq_of_lt (by omega)
          rw [hdk, hsk,
            SakRs.getD_listCopy _ _ _ _ _
              (by simp only [SakRs.length_listCopy, hbl]; omega),
            if_pos (by omega),
            SakRs.getD_listCopy _ _ _ _ _ (by simp only [hbl]; omega),
            if_neg (by omega)]
          congr 1
          omega
        · have hdk : (dst + k) % d.capacity = dst + k - d.capacity := by
            rw [SakRs.mod_two_cases _ _ (by omega), if_neg (by omega)]
          have hsk : (src + k) % d.capacity = src + k := Nat.mod_eq_of_lt (by omega)
          rw [hdk, hsk,
            SakRs.getD_listCopy _ _ _ _ _
              (by simp only [SakRs.length_listCopy, hbl]; omega),
            if_neg (by omega),
            SakRs.getD_listCopy _ _ _ _ _ (by simp only [hbl]; omega),
            if_pos (by omega)]
          congr 1
          omega
      · intro p hp hp2
        rw [SakRs.getD_listCopy _ _ _ _ _
            (by simp only [SakRs.length_listCopy, hbl]; omega),
          if_neg (fun hc => hp2 (p - dst) (by omega)
            (by have h5 : dst + (p - dst) = p := by omega
                rw [h5, Nat.mod_eq_of_lt hp])),
          SakRs.getD_listCopy _ _ _ _ _ (by simp only [hbl]; omega),
          if_neg (fun hc => hp2 (d.capacity - dst + p) (by omega)
            (by have h5 : dst + (d.capacity - dst + p) = d.capacity + p := by omega
                rw [h5, Nat.add_mod_left, Nat.mod_eq_of_lt hp]))]
    -- case (false, true, false): src wraps, two copies, in-order
    next hb1 hb2 hb3 =>
      have h1 : ¬(d.wrap_sub dst src < len) := of_decide_eq_false hb1
      have h2 : d.capacity - src < len := of_decide_eq_true hb2
      have h3 : ¬(d.capacity - dst < len) := of_decide_eq_false hb3
      have hslt : dst < src := by omega
      have hwv : ¬(dst + d.capacity - src < len) := by
        rw [hws, if_neg (by omega)] at h1
        exact h1
      refine ⟨rfl, rfl, by simp [capacity], ?_, ?_⟩
      · intro k hk
        by_cases hks : k < d.capacity - src
        · have hdk : (dst + k) % d.capacity = dst + k := Nat.mod_eq_of_lt (by omega)
          have hsk : (src + k) % d.capacity = src + k := Nat.mod_eq_of_lt (by omega)
          rw [hdk, hsk,
            SakRs.getD_listCopy _ _ _ _ _
              (by simp only [SakRs.length_listCopy, hbl]; omega),
            if_neg (by omega),
            SakRs.getD_listCopy _ _ _ _ _ (by simp only [hbl]; omega),
            if_pos (by omega)]
          congr 1
          omega
        · have hdk : (dst + k) % d.capacity = dst + k := Nat.mod_eq_of_lt (by omega)
          have hsk : (src + k) % d.capacity = src + k - d.capacity := by
            rw [SakRs.mod_two_cases _ _ (by omega), if_neg (by omega)]
          rw [hdk, hsk,
            SakRs.getD_listCopy _ _ _ _ _
              (by simp only [SakRs.length_listCopy, hbl]; omega),
            if_pos (by omega),
            SakRs.getD_listCopy _ _ _ _ _ (by simp only [hbl]; omega),
            if_neg (by omega)]
          congr 1
          omega
      · intro p hp hp2
        rw [SakRs.getD_listCopy _ _ _ _ _
            (by simp only [SakRs.length_listCopy, hbl]; omega),
          if_neg (fun hc => hp2 (p - dst) (by omega)
            (by have h5 : dst + (p - dst) = p := by omega
                rw [h5, Nat.mod_eq_of_lt hp])),
          SakRs.getD_listCopy _ _ _ _ _ (by simp only [hbl]; omega),
          if_neg (fun hc => hp2 (p - dst) (by omega)
            (by have h5 : dst + (p - dst) = p := by omega
                rw [h5, Nat.mod_eq_of_lt hp]))]
    -- case (true, true, false): src wraps, two copies, reverse order
    next hb1 hb2 hb3 =>
      have h1 : d.wrap_sub dst src < len := of_decide_eq_true hb1
      have h2 : d.capacity - src < len := of_decide_eq_true hb2
      have h3 : ¬(d.capacity - dst < len) := of_decide_eq_false hb3
      have hslt : dst < src := by omega
      have hwv : dst + d.capacity - src < len := by
        rw [hws, if_neg (by omega)] at h1
        exact h1
      refine ⟨rfl, rfl, by simp [capacity], ?_, ?_⟩
      · intro k hk
        by_cases hks : k < d.capacity - src
        · have hdk : (dst + k) % d.capacity = dst + k := Nat.mod_eq_of_lt (by omega)
          have hsk : (src + k) % d.capacity = src + k := Nat.mod_eq_of_lt (by omega)
          rw [hdk, hsk,
            SakRs.getD_listCopy _ _ _ _ _
              (by simp only [SakRs.length_listCopy, hbl]; omega),
            if_pos (by omega),
            SakRs.getD_listCopy _ _ _ _ _ (by simp only [hbl]; omega),
            if_neg (by omega)]
          congr 1
          omega
        · have hdk : (dst + k) % d.capacity = dst + k := Nat.mod_eq_of_lt (by omega)
          have hsk : (src + k) % d.capacity = src + k - d.capacity := by
            rw [SakRs.mod_two_cases _ _ (by omega), if_neg (by omega)]
          rw [hdk, hsk,
            SakRs.getD_listCopy _ _ _ _ _
              (by simp only [SakRs.length_listCopy, hbl]; omega),
            if_neg (by omega),
            SakRs.getD_listCopy _ _ _ _ _ (by simp only [hbl]; omega),
            if_pos (by omega)]
          congr 1
          omega
      · intro p hp hp2
        rw [SakRs.getD_listCopy _ _ _ _ _
            (by simp only [SakRs.length_listCopy, hbl]; omega),
          if_neg (fun hc => hp2 (p - dst) (by omega)
            (by have h5 : dst + (p - dst) = p := by omega
                rw [h5, Nat.mod_eq_of_lt hp])),
          SakRs.getD_listCopy _ _ _ _ _ (by simp only [hbl]; omega),
          if_neg (fun hc => hp2 (p - dst) (by omega)
            (by have h5 : dst + (p - dst) = p := by omega
                rw [h5, Nat.mod_eq_of_lt hp]))]
    -- case (false, true, true): both wrap, three copies, in-order
    next hb1 hb2 hb3 =>
      have h1 : ¬(d.wrap_sub dst src < len) := of_decide_eq_false hb1
      have h2 : d.capacity - src < len := of_decide_eq_true hb2
      have h3 : d.capacity - dst < len := of_decide_eq_true hb3
      have hord : ¬ src ≤ dst := by
        intro hord
        rw [hws, if_pos hord] at h1
        omega
      have hwv : ¬(dst + d.capacity - src < len) := by
        rw [hws, if_neg hord] at h1
        exact h1
      refine ⟨rfl, rfl, by simp [capacity], ?_, ?_⟩
      · intro k hk
        by_cases hk1 : k < d.capacity - src
        · have hdk : (dst + k) % d.capacity = dst + k := Nat.mod_eq_of_lt (by omega)
          have hsk : (src + k) % d.capacity = src + k := Nat.mod_eq_of_lt (by omega)
          rw [hdk, hsk,
            SakRs.getD_listCopy _ _ _ _ _
              (by simp only [SakRs.length_listCopy, hbl]; omega),
            if_neg (by omega),
            SakRs.getD_listCopy _ _ _ _ _
              (by simp only [SakRs.length_listCopy, hbl]; omega),
            if_neg (by omega),
            SakRs.getD_listCopy _ _ _ _ _ (by simp only [hbl]; omega),
            if_pos (by omega)]
          congr 1
          omega
        · by_cases hk2 : k < d.capacity - dst
          · have hdk : (dst + k) % d.capacity = dst + k :=
              Nat.mod_eq_of_lt (by omega)
            have hsk : (src + k) % d.capacity = src + k - d.capacity := by
              rw [SakRs.mod_two_cases _ _ (by omega), if_neg (by omega)]
            rw [hdk, hsk,
              SakRs.getD_listCopy _ _ _ _ _
                (by simp only [SakRs.length_listCopy, hbl]; omega),
              if_neg (by omega),
              SakRs.getD_listCopy _ _ _ _ _
                (by simp only [SakRs.length_listCopy, hbl]; omega),
              if_pos (by omega),
              SakRs.getD_listCopy _ _ _ _ _ (by simp only [hbl]; omega),
              if_neg (by omega)]
            congr 1
            omega
          · have hdk : (dst + k) % d.capacity = dst + k - d.capacity := by
              rw [SakRs.mod_two_cases _ _ (by omega), if_neg (by omega)]
            have hsk : (src + k) % d.capacity = src + k - d.capacity := by
              rw [SakRs.mod_two_cases _ _ (by omega), if_neg (by omega)]
            rw [hdk, hsk,
              SakRs.getD_listCopy _ _ _ _ _
                (by simp only [SakRs.length_listCopy, hbl]; omega),
              if_pos (by omega),
              SakRs.getD_listCopy _ _ _ _ _
                (by simp only [SakRs.length_listCopy, hbl]; omega),
              if_neg (by omega),
              SakRs.getD_listCopy _ _ _ _ _ (by simp only [hbl]; omega),
              if_neg (by omega)]
            congr 1
            omega
      · intro p hp hp2
        rw [SakRs.getD_listCopy _ _ _ _ _
            (by simp only [SakRs.length_listCopy, hbl]; omega),
          if_neg (fun hc => hp2 (d.capacity - dst + p) (by omega)
            (by have h5 : dst + (d.capacity - dst + p) = d.capacity + p := by omega
                rw [h5, Nat.add_mod_left, Nat.mod_eq_of_lt hp])),
          SakRs.getD_listCopy _ _ _ _ _
            (by simp only [SakRs.length_listCopy, hbl]; omega),
          if_neg (fun hc => hp2 (p - dst) (by omega)
            (by have h5 : dst + (p - dst) = p := by omega
                rw [h5, Nat.mod_eq_of_lt hp])),
          SakRs.getD_listCopy _ _ _ _ _ (by simp only [hbl]; omega),
          if_neg (fun hc => hp2 (p - dst) (by omega)
            (by have h5 : dst + (p - dst) = p := by omega
                rw [h5, Nat.mod_eq_of_lt hp]))]
    -- case (true, true, true): both wrap, three copies, reverse order
    next hb1 hb2 hb3 =>
      have h1 : d.wrap_sub dst src < len := of_decide_eq_true hb1
      have h2 : d.capacity - src < len := of_decide_eq_true hb2
      have h3 : d.capacity - dst < len := of_decide_eq_true hb3
      have hord : src ≤ dst := by
        by_contra hord
        rw [hws, if_neg hord] at h1
        omega
      have hwv : dst - src < len := by
        rw [hws, if_pos hord] at h1
        exact h1
      refine ⟨rfl, rfl, by simp [capacity], ?_, ?_⟩
      · intro k hk
        by_cases hk1 : k < d.capacity - dst
        · have hdk : (dst + k) % d.capacity = dst + k := Nat.mod_eq_of_lt (by omega)
          have hsk : (src + k) % d.capacity = src + k := Nat.mod_eq_of_lt (by omega)
          rw [hdk, hsk,
            SakRs.getD_listCopy _ _ _ _ _
              (by simp only [SakRs.length_listCopy, hbl]; omega),
            if_pos (by omega),
            SakRs.getD_listCopy _ _ _ _ _
              (by simp only [SakRs.length_listCopy, hbl]; omega),
            if_neg (by omega),
            SakRs.getD_listCopy _ _ _ _ _ (by simp only [hbl]; omega),
            if_neg (by omega)]
          congr 1
          omega
        · by_cases hk2 : k < d.capacity - src
          · have hdk : (dst + k) % d.capacity = dst + k - d.capacity := by
              rw [SakRs.mod_two_cases _ _ (by omega), if_neg (by omega)]
            have hsk : (src + k) % d.capacity = src + k :=
              Nat.mod_eq_of_lt (by omega)
            rw [hdk, hsk,
              SakRs.getD_listCopy _ _ _ _ _
                (by simp only [SakRs.length_listCopy, hbl]; omega),
              if_neg (by omega),
              SakRs.getD_listCopy _ _ _ _ _
                (by simp only [SakRs.length_listCopy, hbl]; omega),
              if_pos (by omega),
              SakRs.getD_listCopy _ _ _ _ _ (by simp only [hbl]; omega),
              if_neg (by omega)]
            congr 1
            omega
          · have hdk : (dst + k) % d.capacity = dst + k - d.capacity := by
              rw [SakRs.mod_two_cases _ _ (by omega), if_neg (by omega)]
            have hsk : (src + k) % d.capacity = src + k - d.capacity := by
              rw [SakRs.mod_two_cases _ _ (by omega), if_neg (by omega)]
            rw [hdk, hsk,
              SakRs.getD_listCopy _ _ _ _ _
                (by simp only [SakRs.length_listCopy, hbl]; omega),
              if_neg (by omega),
              SakRs.getD_listCopy _ _ _ _ _
                (by simp only [SakRs.length_listCopy, hbl]; omega),
              if_neg (by omega),
              SakRs.getD_listCopy _ _ _ _ _ (by simp only [hbl]; omega),
              if_pos (by omega)]
            congr 1
            omega
      · intro p hp hp2
        rw [SakRs.getD_listCopy _ _ _ _ _
            (by simp only [SakRs.length_listCopy, hbl]; omega),
          if_neg (fun hc => hp2 (p - dst) (by omega)
            (by have h5 : dst + (p - dst) = p := by omega
                rw [h5, Nat.mod_eq_of_lt hp])),
          SakRs.getD_listCopy _ _ _ _ _
            (by simp only [SakRs.length_listCopy, hbl]; omega),
          if_neg (fun hc => hp2 (d.capacity - dst + p) (by omega)
            (by have h5 : dst + (d.capacity - dst + p) = d.capacity + p := by omega
                rw [h5, Nat.add_mod_left, Nat.mod_eq_of_lt hp])),
          SakRs.getD_listCopy _ _ _ _ _ (by simp only [hbl]; omega),
          if_neg (fun hc => hp2 (d.capacity - dst + p) (by omega)
            (by have h5 : dst + (d.capacity - dst + p) = d.capacity + p := by omega
                rw [h5, Nat.add_mod_left, Nat.mod_eq_of_lt hp]))]

end InplaceDeque

namespace SakRs

variable {α : Type} [Inhabited α]

theorem getD_take (l : List α) (n i : ℕ) (hi : i < n) (hil : i < l.length) :
    (l.take n).getD i default = l.getD i default := by
  rw [List.getD_eq_getElem _ _ (by simp [List.length_take]; omega),
    List.getElem_take, List.getD_eq_getElem _ _ hil]

theorem getD_drop (l : List α) (n i : ℕ) (h : n + i < l.length) :
    (l.drop n).getD i default = l.getD (n + i) default := by
  rw [List.getD_eq_getElem _ _ (by simp [List.length_drop]; omega),
    List.getElem_drop, List.getD_eq_getElem _ _ h]

theorem getD_append_right (l1 l2 : List α) (c : ℕ) (h : l1.length ≤ c) :
    (l1 ++ l2).getD c default = l2.getD (c - l1.length) default := by
  rw [List.getD_eq_getElem?_getD, List.getElem?_append_right h,
    ← List.getD_eq_getElem?_getD]

end SakRs

namespace InplaceDeque

variable {α : Type} [Inhabited α]

@[simp]
theorem drain_live_head (d : InplaceDeque α) (start : ℕ) :
    (drain_live d start).head = d.head := rfl

@[simp]
theorem drain_live_buf (d : InplaceDeque α) (start : ℕ) :
    (drain_live d start).buf = d.buf := rfl

@[simp]
theorem drain_live_capacity (d : InplaceDeque α) (start : ℕ) :
    (drain_live d start).capacity = d.capacity := rfl

@[simp]
theorem drain_live_len (d : InplaceDeque α) (start : ℕ) :
    (drain_live d start).len = start := rfl

/-- If the deque `e` stores, at each logical index `i`, the element of `d` at
logical index `i` (below the gap) or `dlen + i` (at or above it), then `e`'s
logical sequence is `d`'s with the logical range `[start, start + dlen)`
removed. -/
theorem toList_gap_aux (d e : InplaceDeque α) (start dlen : ℕ)
    (hrange : start + dlen ≤ d.len)
    (hlen : e.len = d.len - dlen)
    (hpt : ∀ i < e.len, (toList e).getD i default
      = d.buf.getD ((d.head + (if i < start then i else dlen + i)) % d.capacity)
          default) :
    toList e = (toList d).take start ++ (toList d).drop (start + dlen) := by
  apply SakRs.list_ext_getD
  · simp [hlen]
    omega
  · intro i hi
    rw [toList_length] at hi
    rw [hpt i hi]
    by_cases hcase : i < start
    · rw [if_pos hcase, SakRs.getD_append_left _ _ _ (by simp; omega),
        SakRs.getD_take _ _ _ hcase (by simp; omega), toList_getD d i (by omega)]
    · rw [if_neg hcase, SakRs.getD_append_right _ _ _ (by simp; omega)]
      have hlt : (List.take start (toList d)).length = start := by
        simp
        omega
      rw [hlt, SakRs.getD_drop _ _ _ (by simp; omega)]
      have hidx : start + dlen + (i - start) = dlen + i := by omega
      rw [hidx, toList_getD d (dlen + i) (by omega)]

theorem drain_spec (d : InplaceDeque α) (hwf : WF d) (start dlen : ℕ)
    (hrange : start + dlen ≤ d.len) :
    (drain_live d start).len = start ∧
    drain_items d start dlen = ((toList d).drop start).take dlen ∧
    toList (drain_finish d start dlen d.len)
      = (toList d).take start ++ (toList d).drop (start + dlen) ∧
    (drain_finish d start dlen d.len).len = d.len - dlen ∧
    WF (drain_finish d start dlen d.len) := by
  have hbl : d.buf.length = d.capacity := rfl
  have hdlen : d.len ≤ d.capacity := hwf.2
  have hitems : drain_items d start dlen = ((toList d).drop start).take dlen := by
    apply SakRs.list_ext_getD
    · simp [drain_items]
      omega
    · intro k hk
      have hklen : k < dlen := by simpa [drain_items] using hk
      have hN : 0 < d.capacity := by omega
      have hhead : d.head < d.capacity := by
        rcases hwf.1 with h | h
        · exact h
        · omega
      have hL : (drain_items d start dlen).getD k default
          = d.buf.getD ((d.head + (start + k)) % d.capacity) default := by
        rw [drain_items]
        have hkl : k < ((List.range dlen).map fun k =>
            d.buf.getD (d.to_physical_index (start + k)) default).length := by
          simpa using hklen
        rw [List.getD_eq_getElem _ _ hkl, List.getElem_map, List.getElem_range,
          to_physical_index, wrap_add, wrap_index_eq_mod _ _ (by omega)]
      rw [hL, SakRs.getD_take _ _ _ hklen (by simp; omega),
        SakRs.getD_drop _ _ _ (by simp; omega), toList_getD d _ (by omega)]
  have hphysL : ∀ j, d.head + j < 2 * d.capacity →
      (drain_live d start).to_physical_index j = (d.head + j) % d.capacity := by
    intro j hj
    rw [to_physical_index, wrap_add, wrap_index_eq_mod _ _ (by simpa using hj)]
    rfl
  have hmain : toList (drain_finish d start dlen d.len)
        = (toList d).take start ++ (toList d).drop (start + dlen) ∧
      (drain_finish d start dlen d.len).len = d.len - dlen ∧
      WF (drain_finish d start dlen d.len) := by
    by_cases hC1 : start ≠ 0 ∧ d.len - dlen - start ≠ 0
    · have hN : 0 < d.capacity := by omega
      have hhead : d.head < d.capacity := by
        rcases hwf.1 with h | h
        · exact h
        · omega
      by_cases hC2 : start < d.len - dlen - start
      · -- head side shorter: wrap_copy the front forward, head advances by dlen
        obtain ⟨hch, hcl, hcc, hcin, hcout⟩ :=
          wrap_copy_spec (drain_live d start) ((drain_live d start).head)
            ((drain_live d start).to_physical_index dlen) start
            (by simpa using hhead)
            (by rw [hphysL dlen (by omega)]
                simpa using Nat.mod_lt _ hN)
            (by simp; omega)
            (by rw [hphysL dlen (by omega)]
                simp only [drain_live_head, drain_live_capacity]
                rw [SakRs.mod_two_cases d.capacity (d.head + dlen) (by omega)]
                split
                next h => omega
                next h => omega)
        rw [hphysL dlen (by omega)] at hch hcl hcc hcin hcout
        simp only [drain_live_head, drain_live_buf, drain_live_capacity,
          drain_live_len, Nat.mod_add_mod] at hch hcl hcc hcin hcout
        set A := (drain_live d start).wrap_copy d.head
          ((d.head + dlen) % d.capacity) start with hA
        have hAphys : A.to_physical_index dlen = (d.head + dlen) % d.capacity := by
          rw [to_physical_index, wrap_add, hch, hcc,
            wrap_index_eq_mod _ _ (by omega)]
        refine ⟨?_, ?_, ?_⟩
        · simp only [drain_finish]
          rw [if_pos hC1, if_pos hC2, if_neg (by omega : ¬(d.len - dlen = 0)),
            if_pos hC2, hphysL dlen (by omega)]
          simp only [drain_live_head]
          rw [← hA]
          refine toList_gap_aux d _ start dlen hrange rfl ?_
          intro i hi
          have hi2 : i < d.len - dlen := hi
          rw [toList_getD _ i hi]
          show A.buf.getD ((A.to_physical_index dlen + i) % A.capacity) default = _
          rw [hAphys, hcc, Nat.mod_add_mod]
          by_cases hio : i < start
          · rw [if_pos hio]
            exact hcin i hio
          · rw [if_neg hio]
            have hp : (d.head + dlen + i) % d.capacity < d.capacity :=
              Nat.mod_lt _ hN
            have hni : ∀ k, k < start →
                (d.head + dlen + i) % d.capacity
                  ≠ (d.head + dlen + k) % d.capacity := by
              intro k hks heq
              have hinj := SakRs.phys_inj d.capacity (d.head + dlen)
                (by omega : i < d.capacity) (by omega : k < d.capacity) heq
              omega
            rw [hcout _ hp hni]
            have harith : d.head + dlen + i = d.head + (dlen + i) := by omega
            rw [harith]
        · simp only [drain_finish]
        · simp only [drain_finish]
          rw [if_pos hC1, if_pos hC2, if_neg (by omega : ¬(d.len - dlen = 0)),
            if_pos hC2, hphysL dlen (by omega)]
          simp only [drain_live_head]
          rw [← hA]
          refine ⟨Or.inl ?_, ?_⟩
          · show A.to_physical_index dlen < A.capacity
            rw [hAphys, hcc]
            exact Nat.mod_lt _ hN
          · show d.len - dlen ≤ A.capacity
            rw [hcc]
            omega
      · -- tail side shorter (or equal): wrap_copy the tail backward, head unchanged
        obtain ⟨hch, hcl, hcc, hcin, hcout⟩ :=
          wrap_copy_spec (drain_live d start)
            ((drain_live d start).to_physical_index (start + dlen))
            ((drain_live d start).to_physical_index start) (d.len - dlen - start)
            (by rw [hphysL (start + dlen) (by omega)]
                simpa using Nat.mod_lt _ hN)
            (by rw [hphysL start (by omega)]
                simpa using Nat.mod_lt _ hN)
            (by simp; omega)
            (by rw [hphysL (start + dlen) (by omega), hphysL start (by omega)]
                simp only [drain_live_capacity]
                rw [SakRs.mod_two_cases d.capacity (d.head + (start + dlen)) (by omega),
                  SakRs.mod_two_cases d.capacity (d.head + start) (by omega)]
                split
                all_goals split
                all_goals omega)
        rw [hphysL (start + dlen) (by omega), hphysL start (by omega)]
          at hch hcl hcc hcin hcout
        simp only [drain_live_head, drain_live_buf, drain_live_capacity,
          drain_live_len, Nat.mod_add_mod] at hch hcl hcc hcin hcout
        set A := (drain_live d start).wrap_copy
          ((d.head + (start + dlen)) % d.capacity)
          ((d.head + start) % d.capacity) (d.len - dlen - start) with hA
        refine ⟨?_, ?_, ?_⟩
        · simp only [drain_finish]
          rw [if_pos hC1, if_neg hC2, if_neg (by omega : ¬(d.len - dlen = 0)),
            if_neg hC2, hphysL (start + dlen) (by omega), hphysL start (by omega)]
          rw [← hA]
          refine toList_gap_aux d _ start dlen hrange rfl ?_
          intro i hi
          have hi2 : i < d.len - dlen := hi
          rw [toList_getD _ i hi]
          show A.buf.getD ((A.head + i) % A.capacity) default = _
          rw [hch, hcc]
          by_cases hio : i < start
          · rw [if_pos hio]
            have hp : (d.head + i) % d.capacity < d.capacity := Nat.mod_lt _ hN
            have hni : ∀ k, k < d.len - dlen - start →
                (d.head + i) % d.capacity
                  ≠ (d.head + start + k) % d.capacity := by
              intro k hks heq
              have harith : d.head + start + k = d.head + (start + k) := by omega
              rw [harith] at heq
              have hinj := SakRs.phys_inj d.capacity d.head
                (by omega : i < d.capacity)
                (by omega : start + k < d.capacity) heq
              omega
            rw [hcout _ hp hni]
          · rw [if_neg hio]
            have hc := hcin (i - start) (by omega)
            have e1 : d.head + (start + dlen) + (i - start)
                = d.head + (dlen + i) := by omega
            have e2 : d.head + start + (i - start) = d.head + i := by omega
            rw [e1, e2] at hc
            exact hc
        · simp only [drain_finish]
        · simp only [drain_finish]
          rw [if_pos hC1, if_neg hC2, if_neg (by omega : ¬(d.len - dlen = 0)),
            if_neg hC2, hphysL (start + dlen) (by omega), hphysL start (by omega)]
          rw [← hA]
          refine ⟨Or.inl ?_, ?_⟩
          · show A.head < A.capacity
            rw [hch, hcc]
            exact hhead
          · show d.len - dlen ≤ A.capacity
            rw [hcc]
            omega
    · -- at most one side nonempty: no wrap_copy runs
      by_cases hz : d.len - dlen = 0
      · -- everything drained; start must be 0
        have hs0 : start = 0 := by omega
        subst hs0
        refine ⟨?_, ?_, ?_⟩
        · simp only [drain_finish]
          rw [if_neg (by omega : ¬((0 : ℕ) ≠ 0 ∧ d.len - dlen - 0 ≠ 0)),
            if_pos hz]
          refine toList_gap_aux d _ 0 dlen hrange rfl ?_
          intro i hi
          have hi2 : i < d.len - dlen := hi
          exact absurd hi2 (by omega)
        · simp only [drain_finish]
        · simp only [drain_finish]
          rw [if_neg (by omega : ¬((0 : ℕ) ≠ 0 ∧ d.len - dlen - 0 ≠ 0)),
            if_pos hz]
          rcases Nat.eq_zero_or_pos d.capacity with hc0 | hc0
          · exact ⟨Or.inr ⟨hc0, rfl⟩, by show d.len - dlen ≤ d.capacity; omega⟩
          · exact ⟨Or.inl (by show (0 : ℕ) < d.capacity; omega),
              by show d.len - dlen ≤ d.capacity; omega⟩
      · have hN : 0 < d.capacity := by omega
        have hhead : d.head < d.capacity := by
          rcases hwf.1 with h | h
          · exact h
          · omega
        by_cases hs0 : start = 0
        · -- drain at the front: head jumps past the gap
          subst hs0
          refine ⟨?_, ?_, ?_⟩
          · simp only [drain_finish]
            rw [if_neg (by omega : ¬((0 : ℕ) ≠ 0 ∧ d.len - dlen - 0 ≠ 0)),
              if_neg hz, if_pos (by omega : (0 : ℕ) < d.len - dlen - 0)]
            refine toList_gap_aux d _ 0 dlen hrange rfl ?_
            intro i hi
            have hi2 : i < d.len - dlen := hi
            rw [toList_getD _ i hi, if_neg (by omega : ¬ i < 0)]
            show d.buf.getD
              (((drain_live d 0).to_physical_index dlen + i) % d.capacity) default
              = _
            rw [hphysL dlen (by omega), Nat.mod_add_mod]
            have harith : d.head + dlen + i = d.head + (dlen + i) := by omega
            rw [harith]
          · simp only [drain_finish]
          · simp only [drain_finish]
            rw [if_neg (by omega : ¬((0 : ℕ) ≠ 0 ∧ d.len - dlen - 0 ≠ 0)),
              if_neg hz, if_pos (by omega : (0 : ℕ) < d.len - dlen - 0)]
            refine ⟨Or.inl ?_, ?_⟩
            · show (drain_live d 0).to_physical_index dlen < d.capacity
              rw [hphysL dlen (by omega)]
              exact Nat.mod_lt _ hN
            · show d.len - dlen ≤ d.capacity
              omega
        · -- drain at the back: nothing moves
          have htz : d.len - dlen - start = 0 := by
            by_contra htz
            exact hC1 ⟨hs0, htz⟩
          refine ⟨?_, ?_, ?_⟩
          · simp only [drain_finish]
            rw [if_neg (by omega : ¬(start ≠ 0 ∧ d.len - dlen - start ≠ 0)),
              if_neg hz, if_neg (by omega : ¬ start < d.len - dlen - start)]
            refine toList_gap_aux d _ start dlen hrange rfl ?_
            intro i hi
            have hi3 : i < d.len - dlen := hi
            have hi2 : i < start := by omega
            rw [toList_getD _ i hi, if_pos hi2]
            rfl
          · simp only [drain_finish]
          · simp only [drain_finish]
            rw [if_neg (by omega : ¬(start ≠ 0 ∧ d.len - dlen - start ≠ 0)),
              if_neg hz, if_neg (by omega : ¬ start < d.len - dlen - start)]
            exact ⟨Or.inl hhead, by show d.len - dlen ≤ d.capacity; omega⟩
  exact ⟨rfl, hitems, hmain.1, hmain.2.1, hmain.2.2⟩

end InplaceDeque

/-- **C7**: for every ring deque and valid logical range `[start, endIdx)` of
its length, creating the drain truncates the stored length to `start`; fully
consuming the drain yields exactly the elements of the range in logical order;
and the drain's cleanup leaves the deque holding exactly the elements outside
the range in their original relative order, with `len` reduced by the drained
count and the ring invariant restored. -/
theorem inplaceDeque_drain_correct (α : Type) [Inhabited α] (d : InplaceDeque α)
    (hwf : InplaceDeque.WF d) (start endIdx : ℕ) (hse : start ≤ endIdx)
    (hel : endIdx ≤ d.len) :
    (InplaceDeque.drain_live d start).len = start ∧
    InplaceDeque.drain_items d start (endIdx - start)
      = ((InplaceDeque.toList d).drop start).take (endIdx - start) ∧
    InplaceDeque.toList (InplaceDeque.drain_finish d start (endIdx - start) d.len)
      = (InplaceDeque.toList d).take start ++ (InplaceDeque.toList d).drop endIdx ∧
    (InplaceDeque.drain_finish d start (endIdx - start) d.len).len
      = d.len - (endIdx - start) ∧
    InplaceDeque.WF (InplaceDeque.drain_finish d start (endIdx - start) d.len) := by
  have h := InplaceDeque.drain_spec d hwf start (endIdx - start) (by omega)
  have he : start + (endIdx - start) = endIdx := by omega
  rw [he] at h
  exact h

/-- Witness for C7 at the spec's concrete example: draining `[1, 3)` of
`[1,2,3,4,5]` yields `[2,3]` and leaves `[1,4,5]`. -/
theorem inplaceDeque_drain_correct_witness :
    InplaceDeque.WF (⟨[1, 2, 3, 4, 5], 0, 5⟩ : InplaceDeque ℤ) ∧
    (1 : ℕ) ≤ 3 ∧ (3 : ℕ) ≤ (⟨[1, 2, 3, 4, 5], 0, 5⟩ : InplaceDeque ℤ).len ∧
    InplaceDeque.drain_items (⟨[1, 2, 3, 4, 5], 0, 5⟩ : InplaceDeque ℤ) 1 (3 - 1)
      = [2, 3] ∧
    InplaceDeque.toList (InplaceDeque.drain_finish
      (⟨[1, 2, 3, 4, 5], 0, 5⟩ : InplaceDeque ℤ) 1 (3 - 1)
      (⟨[1, 2, 3, 4, 5], 0, 5⟩ : InplaceDeque ℤ).len) = [1, 4, 5] := by
  have h := inplaceDeque_drain_correct ℤ ⟨[1, 2, 3, 4, 5], 0, 5⟩
    ⟨Or.inl (by decide), by decide⟩ 1 3 (by decide) (by decide)
  refine ⟨⟨Or.inl (by decide), by decide⟩, by decide, by decide, ?_, ?_⟩
  · rw [h.2.1]
    decide
  · rw [h.2.2.1]
    decide

namespace InplaceDeque

variable {α : Type} [Inhabited α]

theorem contiguous_slice_eq_toList (e : InplaceDeque α)
    (hcont : e.head + e.len ≤ e.capacity) :
    (e.buf.drop e.head).take e.len = toList e := by
  have hbl : e.buf.length = e.capacity := rfl
  apply SakRs.list_ext_getD
  · simp
    omega
  · intro i hi
    have hi2 : i < e.len := by simp at hi; omega
    rw [SakRs.getD_take _ _ _ hi2 (by simp; omega),
      SakRs.getD_drop _ _ _ (by omega), toList_getD e i hi2,
      Nat.mod_eq_of_lt (by omega)]

theorem as_slices_concat (d : InplaceDeque α) (hwf : WF d) :
    (as_slices d).1 ++ (as_slices d).2 = toList d := by
  have hbl : d.buf.length = d.capacity := rfl
  have hdlen : d.len ≤ d.capacity := hwf.2
  by_cases h0 : d.len = 0
  · simp only [as_slices, slice_ranges]
    rw [if_pos (by omega : d.len - 0 = 0)]
    simp [bufferRange, toList, h0]
  · have hN : 0 < d.capacity := by have := hwf.2; omega
    have hhead : d.head < d.capacity := by
      rcases hwf.1 with h | h
      · exact h
      · omega
    have hws : d.to_physical_index 0 = d.head := by
      rw [to_physical_index, wrap_add, wrap_index_eq_mod _ _ (by omega),
        Nat.add_zero, Nat.mod_eq_of_lt hhead]
    simp only [as_slices, slice_ranges]
    rw [if_neg (by omega : ¬(d.len - 0 = 0)), hws]
    by_cases hcase : d.capacity - d.head ≥ d.len - 0
    · rw [if_pos hcase]
      simp only [bufferRange]
      have he1 : d.head + (d.len - 0) - d.head = d.len := by omega
      rw [he1]
      have he2 : (0 : ℕ) - 0 = 0 := rfl
      rw [he2]
      simp only [List.take_zero, List.append_nil]
      exact contiguous_slice_eq_toList d (by show d.head + d.len ≤ d.capacity; omega)
    · rw [if_neg hcase]
      simp only [bufferRange]
      apply SakRs.list_ext_getD
      · simp only [List.length_append, List.length_take, List.length_drop,
          toList_length]
        omega
      · intro i hi
        have hi2 : i < d.len := by
          simp only [List.length_append, List.length_take, List.length_drop] at hi
          omega
        have hAlen : ((d.buf.drop d.head).take (d.capacity - d.head)).length
            = d.capacity - d.head := by
          simp only [List.length_take, List.length_drop]
          omega
        by_cases hio : i < d.capacity - d.head
        · rw [SakRs.getD_append_left _ _ _ (by rw [hAlen]; omega)]
          rw [SakRs.getD_take _ _ _ hio (by simp only [List.length_drop]; omega)]
          rw [SakRs.getD_drop _ _ _ (by omega)]
          rw [toList_getD d i hi2, Nat.mod_eq_of_lt (by omega)]
        · rw [SakRs.getD_append_right _ _ _ (by rw [hAlen]; omega)]
          rw [hAlen]
          rw [SakRs.getD_take (d.buf.drop 0)
            (d.len - 0 - (d.capacity - d.head) - 0)
            (i - (d.capacity - d.head)) (by omega)
            (by simp only [List.length_drop]; omega)]
          rw [SakRs.getD_drop d.buf 0 (i - (d.capacity - d.head)) (by omega)]
          rw [toList_getD d i hi2]
          rw [SakRs.mod_two_cases d.capacity (d.head + i) (by omega),
            if_neg (by omega)]
          congr 1
          omega

theorem make_contiguous_of_contiguous (e : InplaceDeque α)
    (he : e.head ≤ e.capacity - e.len) : make_contiguous e = e := by
  simp only [make_contiguous]
  rw [if_pos he]

theorem make_contiguous_spec (d : InplaceDeque α) (hwf : WF d) :
    toList (make_contiguous d) = toList d ∧
    (make_contiguous d).len = d.len ∧
    (make_contiguous d).capacity = d.capacity ∧
    (make_contiguous d).head
      ≤ (make_contiguous d).capacity - (make_contiguous d).len ∧
    WF (make_contiguous d) := by
  have hbl : d.buf.length = d.capacity := rfl
  have hdlen : d.len ≤ d.capacity := hwf.2
  by_cases hnc : d.head ≤ d.capacity - d.len
  · rw [make_contiguous_of_contiguous d hnc]
    exact ⟨rfl, rfl, rfl, hnc, hwf⟩
  · have hhead : d.head < d.capacity := by
      rcases hwf.1 with h | h
      · exact h
      · omega
    have hN : 0 < d.capacity := by omega
    have hl1 : 1 ≤ d.len := by omega
    have hhl : d.capacity - d.head < d.len := by omega
    by_cases hb1 : d.capacity - d.len ≥ d.capacity - d.head
    · -- enough free space to move the head run to the very front
      have hge : d.len ≤ d.head := by omega
      have hstate : make_contiguous d
          = ⟨SakRs.listCopy (SakRs.listCopy d.buf 0 (d.capacity - d.head)
              (d.len - (d.capacity - d.head))) d.head 0 (d.capacity - d.head),
             0, d.len⟩ := by
        simp only [make_contiguous, copy, copy_nonoverlapping]
        rw [if_neg hnc, if_pos hb1]
      have hBlen : (SakRs.listCopy (SakRs.listCopy d.buf 0 (d.capacity - d.head)
          (d.len - (d.capacity - d.head))) d.head 0 (d.capacity - d.head)).length
          = d.capacity := by
        simp only [SakRs.length_listCopy]
        exact hbl
      have hlenm : (make_contiguous d).len = d.len := by rw [hstate]
      have hcapm : (make_contiguous d).capacity = d.capacity := by
        rw [hstate]
        exact hBlen
      have hheadm : (make_contiguous d).head = 0 := by rw [hstate]
      refine ⟨?_, hlenm, hcapm, by rw [hheadm, hcapm, hlenm] <;> omega,
        ⟨Or.inl (by rw [hheadm, hcapm]; omega), by rw [hlenm, hcapm]; omega⟩⟩
      apply SakRs.list_ext_getD
      · simp [hlenm]
      · intro i hi
        rw [toList_length] at hi
        have hi2 : i < d.len := hlenm ▸ hi
        rw [toList_getD _ i hi, toList_getD d i hi2]
        rw [hcapm, hheadm, hstate]
        dsimp only
        rw [Nat.zero_add, Nat.mod_eq_of_lt (by omega)]
        rw [SakRs.getD_listCopy _ _ _ _ _
          (by simp only [SakRs.length_listCopy]; omega)]
        by_cases hio : i < d.capacity - d.head
        · rw [if_pos (by omega)]
          rw [SakRs.getD_listCopy _ _ _ _ _ (by omega)]
          rw [if_neg (by omega)]
          rw [Nat.mod_eq_of_lt (by omega)]
          congr 1 <;> omega
        · rw [if_neg (by omega)]
          rw [SakRs.getD_listCopy _ _ _ _ _ (by omega)]
          rw [if_pos (by omega)]
          rw [SakRs.mod_two_cases d.capacity (d.head + i) (by omega),
            if_neg (by omega)]
          congr 1 <;> omega
    · by_cases hb2 : d.capacity - d.len ≥ d.len - (d.capacity - d.head)
      · -- enough free space to move the tail run just behind offset tail
        have hstate : make_contiguous d
            = ⟨SakRs.listCopy (SakRs.listCopy d.buf d.head
                (d.len - (d.capacity - d.head)) (d.capacity - d.head)) 0
                (d.len - (d.capacity - d.head) + (d.capacity - d.head))
                (d.len - (d.capacity - d.head)),
               d.len - (d.capacity - d.head), d.len⟩ := by
          simp only [make_contiguous, copy, copy_nonoverlapping]
          rw [if_neg hnc, if_neg hb1, if_pos hb2]
        have hBlen : (SakRs.listCopy (SakRs.listCopy d.buf d.head
            (d.len - (d.capacity - d.head)) (d.capacity - d.head)) 0
            (d.len - (d.capacity - d.head) + (d.capacity - d.head))
            (d.len - (d.capacity - d.head))).length = d.capacity := by
          simp only [SakRs.length_listCopy]
          exact hbl
        have hlenm : (make_contiguous d).len = d.len := by rw [hstate]
        have hcapm : (make_contiguous d).capacity = d.capacity := by
          rw [hstate]
          exact hBlen
        have hheadm : (make_contiguous d).head = d.len - (d.capacity - d.head) := by
          rw [hstate]
        refine ⟨?_, hlenm, hcapm, by rw [hheadm, hcapm, hlenm] <;> omega,
          ⟨Or.inl (by rw [hheadm, hcapm]; omega), by rw [hlenm, hcapm]; omega⟩⟩
        apply SakRs.list_ext_getD
        · simp [hlenm]
        · intro i hi
          rw [toList_length] at hi
          have hi2 : i < d.len := hlenm ▸ hi
          rw [toList_getD _ i hi, toList_getD d i hi2]
          rw [hcapm, hheadm, hstate]
          dsimp only
          rw [Nat.mod_eq_of_lt (by omega)]
          rw [SakRs.getD_listCopy _ _ _ _ _
            (by simp only [SakRs.length_listCopy]; omega)]
          by_cases hio : i < d.capacity - d.head
          · rw [if_neg (by omega)]
            rw [SakRs.getD_listCopy _ _ _ _ _ (by omega)]
            rw [if_pos (by omega)]
            rw [Nat.mod_eq_of_lt (by omega)]
            congr 1 <;> omega
          · rw [if_pos (by omega)]
            rw [SakRs.getD_listCopy _ _ _ _ _ (by omega)]
            rw [if_neg (by omega)]
            rw [SakRs.mod_two_cases d.capacity (d.head + i) (by omega),
              if_neg (by omega)]
            congr 1 <;> omega
      · by_cases hb3 : d.capacity - d.head > d.len - (d.capacity - d.head)
        · -- rotate: shift the wrapped tail left next to the head run
          by_cases hf0 : d.capacity - d.len ≠ 0
          · have hstate : make_contiguous d
                = ⟨(SakRs.listCopy d.buf 0 (d.capacity - d.len)
                    (d.len - (d.capacity - d.head))).take (d.capacity - d.len)
                    ++ rotLeft ((SakRs.listCopy d.buf 0 (d.capacity - d.len)
                    (d.len - (d.capacity - d.head))).drop (d.capacity - d.len))
                    (d.len - (d.capacity - d.head)),
                   d.capacity - d.len, d.len⟩ := by
              simp only [make_contiguous, copy, copy_nonoverlapping]
              rw [if_neg hnc, if_neg hb1, if_neg hb2, if_pos hb3, if_pos hf0]
            have hBlen : ((SakRs.listCopy d.buf 0 (d.capacity - d.len)
                (d.len - (d.capacity - d.head))).take (d.capacity - d.len)
                ++ rotLeft ((SakRs.listCopy d.buf 0 (d.capacity - d.len)
                (d.len - (d.capacity - d.head))).drop (d.capacity - d.len))
                (d.len - (d.capacity - d.head))).length = d.capacity := by
              simp only [rotLeft, List.length_append, List.length_take,
                List.length_drop, SakRs.length_listCopy]
              omega
            have hlenm : (make_contiguous d).len = d.len := by rw [hstate]
            have hcapm : (make_contiguous d).capacity = d.capacity := by
              rw [hstate]
              exact hBlen
            have hheadm : (make_contiguous d).head = d.capacity - d.len := by
              rw [hstate]
            refine ⟨?_, hlenm, hcapm, by rw [hheadm, hcapm, hlenm] <;> omega,
              ⟨Or.inl (by rw [hheadm, hcapm]; omega), by rw [hlenm, hcapm]; omega⟩⟩
            apply SakRs.list_ext_getD
            · simp [hlenm]
            · intro i hi
              rw [toList_length] at hi
              have hi2 : i < d.len := hlenm ▸ hi
              rw [toList_getD _ i hi, toList_getD d i hi2]
              rw [hcapm, hheadm, hstate]
              dsimp only
              rw [Nat.mod_eq_of_lt (by omega)]
              simp only [rotLeft]
              have hT1len : ((SakRs.listCopy d.buf 0 (d.capacity - d.len)
                  (d.len - (d.capacity - d.head))).take (d.capacity - d.len)).length
                  = d.capacity - d.len := by
                simp only [List.length_take, SakRs.length_listCopy]
                omega
              rw [SakRs.getD_append_right _ _ _ (by rw [hT1len]; omega), hT1len]
              have he0 : d.capacity - d.len + i - (d.capacity - d.len) = i := by
                omega
              rw [he0]
              have hSdl : (((SakRs.listCopy d.buf 0 (d.capacity - d.len)
                  (d.len - (d.capacity - d.head))).drop (d.capacity - d.len)).drop
                  (d.len - (d.capacity - d.head))).length = d.capacity - d.head := by
                simp only [List.length_drop, SakRs.length_listCopy]
                omega
              by_cases hio : i < d.capacity - d.head
              · rw [SakRs.getD_append_left _ _ _ (by rw [hSdl]; omega)]
                rw [SakRs.getD_drop _ _ _
                  (by simp only [List.length_drop, SakRs.length_listCopy]; omega)]
                rw [SakRs.getD_drop _ _ _
                  (by simp only [SakRs.length_listCopy]; omega)]
                rw [SakRs.getD_listCopy _ _ _ _ _ (by omega)]
                rw [if_neg (by omega)]
                rw [Nat.mod_eq_of_lt (by omega)]
                congr 1 <;> omega
              · rw [SakRs.getD_append_right _ _ _ (by rw [hSdl]; omega), hSdl]
                rw [SakRs.getD_take _ _ _ (by omega)
                  (by simp only [List.length_drop, SakRs.length_listCopy]; omega)]
                rw [SakRs.getD_drop _ _ _
                  (by simp only [SakRs.length_listCopy]; omega)]
                rw [SakRs.getD_listCopy _ _ _ _ _ (by omega)]
                rw [if_pos (by omega)]
                rw [SakRs.mod_two_cases d.capacity (d.head + i) (by omega),
                  if_neg (by omega)]
                congr 1 <;> omega
          · have hstate : make_contiguous d
                = ⟨d.buf.take (d.capacity - d.len)
                    ++ rotLeft (d.buf.drop (d.capacity - d.len))
                    (d.len - (d.capacity - d.head)),
                   d.capacity - d.len, d.len⟩ := by
              simp only [make_contiguous, copy, copy_nonoverlapping]
              rw [if_neg hnc, if_neg hb1, if_neg hb2, if_pos hb3, if_neg hf0]
            have hf0e : d.capacity - d.len = 0 := by omega
            have hBlen : (d.buf.take (d.capacity - d.len)
                ++ rotLeft (d.buf.drop (d.capacity - d.len))
                (d.len - (d.capacity - d.head))).length = d.capacity := by
              simp only [rotLeft, List.length_append, List.length_take,
                List.length_drop]
              omega
            have hlenm : (make_contiguous d).len = d.len := by rw [hstate]
            have hcapm : (make_contiguous d).capacity = d.capacity := by
              rw [hstate]
              exact hBlen
            have hheadm : (make_contiguous d).head = d.capacity - d.len := by
              rw [hstate]
            refine ⟨?_, hlenm, hcapm, by rw [hheadm, hcapm, hlenm] <;> omega,
              ⟨Or.inl (by rw [hheadm, hcapm]; omega), by rw [hlenm, hcapm]; omega⟩⟩
            apply SakRs.list_ext_getD
            · simp [hlenm]
            · intro i hi
              rw [toList_length] at hi
              have hi2 : i < d.len := hlenm ▸ hi
              rw [toList_getD _ i hi, toList_getD d i hi2]
              rw [hcapm, hheadm, hstate]
              dsimp only
              rw [Nat.mod_eq_of_lt (by omega)]
              simp only [rotLeft]
              have hT1len : (d.buf.take (d.capacity - d.len)).length
                  = d.capacity - d.len := by
                simp only [List.length_take]
                omega
              rw [SakRs.getD_append_right _ _ _ (by rw [hT1len]; omega), hT1len]
              have he0 : d.capacity - d.len + i - (d.capacity - d.len) = i := by
                omega
              rw [he0]
              have hSdl : ((d.buf.drop (d.capacity - d.len)).drop
                  (d.len - (d.capacity - d.head))).length = d.capacity - d.head := by
                simp only [List.length_drop]
                omega
              by_cases hio : i < d.capacity - d.head
              · rw [SakRs.getD_append_left _ _ _ (by rw [hSdl]; omega)]
                rw [SakRs.getD_drop _ _ _ (by simp only [List.length_drop]; omega)]
                rw [SakRs.getD_drop _ _ _ (by omega)]
                rw [Nat.mod_eq_of_lt (by omega)]
                congr 1 <;> omega
              · rw [SakRs.getD_append_right _ _ _ (by rw [hSdl]; omega), hSdl]
                rw [SakRs.getD_take _ _ _ (by omega)
                  (by simp only [List.length_drop]; omega)]
                rw [SakRs.getD_drop _ _ _ (by omega)]
                rw [SakRs.mod_two_cases d.capacity (d.head + i) (by omega),
                  if_neg (by omega)]
                congr 1 <;> omega
        · -- rotate: shift the head run right next to the wrapped tail
          by_cases hf0 : d.capacity - d.len ≠ 0
          · have hstate : make_contiguous d
                = ⟨rotRight ((SakRs.listCopy d.buf d.head
                    (d.len - (d.capacity - d.head)) (d.capacity - d.head)).take
                    d.len) (d.capacity - d.head)
                    ++ (SakRs.listCopy d.buf d.head
                    (d.len - (d.capacity - d.head)) (d.capacity - d.head)).drop
                    d.len,
                   0, d.len⟩ := by
              simp only [make_contiguous, copy, copy_nonoverlapping]
              rw [if_neg hnc, if_neg hb1, if_neg hb2, if_neg hb3, if_pos hf0]
            have hTlen : (((SakRs.listCopy d.buf d.head
                (d.len - (d.capacity - d.head)) (d.capacity - d.head)).take
                d.len)).length = d.len := by
              simp only [List.length_take, SakRs.length_listCopy]
              omega
            have hBlen : (rotRight ((SakRs.listCopy d.buf d.head
                (d.len - (d.capacity - d.head)) (d.capacity - d.head)).take
                d.len) (d.capacity - d.head)
                ++ (SakRs.listCopy d.buf d.head
                (d.len - (d.capacity - d.head)) (d.capacity - d.head)).drop
                d.len).length = d.capacity := by
              simp only [rotRight, List.length_append, List.length_take,
                List.length_drop, SakRs.length_listCopy]
              omega
            have hlenm : (make_contiguous d).len = d.len := by rw [hstate]
            have hcapm : (make_contiguous d).capacity = d.capacity := by
              rw [hstate]
              exact hBlen
            have hheadm : (make_contiguous d).head = 0 := by rw [hstate]
            refine ⟨?_, hlenm, hcapm, by rw [hheadm, hcapm, hlenm] <;> omega,
              ⟨Or.inl (by rw [hheadm, hcapm]; omega), by rw [hlenm, hcapm]; omega⟩⟩
            apply SakRs.list_ext_getD
            · simp [hlenm]
            · intro i hi
              rw [toList_length] at hi
              have hi2 : i < d.len := hlenm ▸ hi
              rw [toList_getD _ i hi, toList_getD d i hi2]
              rw [hcapm, hheadm, hstate]
              dsimp only
              rw [Nat.zero_add, Nat.mod_eq_of_lt (by omega)]
              simp only [rotRight]
              rw [hTlen]
              have hrotlen : (((SakRs.listCopy d.buf d.head
                  (d.len - (d.capacity - d.head)) (d.capacity - d.head)).take
                  d.len).drop (d.len - (d.capacity - d.head))).length
                  = d.capacity - d.head := by
                simp only [List.length_drop, List.length_take,
                  SakRs.length_listCopy]
                omega
              by_cases hio : i < d.capacity - d.head
              · rw [SakRs.getD_append_left _ _ _
                  (by simp only [List.length_append, List.length_drop,
                    List.length_take, SakRs.length_listCopy]; omega)]
                rw [SakRs.getD_append_left _ _ _ (by rw [hrotlen]; omega)]
                rw [SakRs.getD_drop _ _ _
                  (by simp only [List.length_take, SakRs.length_listCopy]; omega)]
                rw [SakRs.getD_take _ _ _ (by omega)
                  (by simp only [SakRs.length_listCopy]; omega)]
                rw [SakRs.getD_listCopy _ _ _ _ _ (by omega)]
                rw [if_pos (by omega)]
                rw [Nat.mod_eq_of_lt (by omega)]
                congr 1 <;> omega
              · rw [SakRs.getD_append_left _ _ _
                  (by simp only [List.length_append, List.length_drop,
                    List.length_take, SakRs.length_listCopy]; omega)]
                rw [SakRs.getD_append_right _ _ _ (by rw [hrotlen]; omega), hrotlen]
                rw [SakRs.getD_take _ _ _ (by omega)
                  (by simp only [List.length_take, SakRs.length_listCopy]; omega)]
                rw [SakRs.getD_take _ _ _ (by omega)
                  (by simp only [SakRs.length_listCopy]; omega)]
                rw [SakRs.getD_listCopy _ _ _ _ _ (by omega)]
                rw [if_neg (by omega)]
                rw [SakRs.mod_two_cases d.capacity (d.head + i) (by omega),
                  if_neg (by omega)]
                congr 1 <;> omega
          · have hstate : make_contiguous d
                = ⟨rotRight (d.buf.take d.len) (d.capacity - d.head)
                    ++ d.buf.drop d.len,
                   0, d.len⟩ := by
              simp only [make_contiguous, copy, copy_nonoverlapping]
              rw [if_neg hnc, if_neg hb1, if_neg hb2, if_neg hb3, if_neg hf0]
            have hf0e : d.capacity - d.len = 0 := by omega
            have hTlen : ((d.buf.take d.len)).length = d.len := by
              simp only [List.length_take]
              omega
            have hBlen : (rotRight (d.buf.take d.len) (d.capacity - d.head)
                ++ d.buf.drop d.len).length = d.capacity := by
              simp only [rotRight, List.length_append, List.length_take,
                List.length_drop]
              omega
            have hlenm : (make_contiguous d).len = d.len := by rw [hstate]
            have hcapm : (make_contiguous d).capacity = d.capacity := by
              rw [hstate]
              exact hBlen
            have hheadm : (make_contiguous d).head = 0 := by rw [hstate]
            refine ⟨?_, hlenm, hcapm, by rw [hheadm, hcapm, hlenm] <;> omega,
              ⟨Or.inl (by rw [hheadm, hcapm]; omega), by rw [hlenm, hcapm]; omega⟩⟩
            apply SakRs.list_ext_getD
            · simp [hlenm]
            · intro i hi
              rw [toList_length] at hi
              have hi2 : i < d.len := hlenm ▸ hi
              rw [toList_getD _ i hi, toList_getD d i hi2]
              rw [hcapm, hheadm, hstate]
              dsimp only
              rw [Nat.zero_add, Nat.mod_eq_of_lt (by omega)]
              simp only [rotRight]
              rw [hTlen]
              have hrotlen : ((d.buf.take d.len).drop
                  (d.len - (d.capacity - d.head))).length
                  = d.capacity - d.head := by
                simp only [List.length_drop, List.length_take]
                omega
              by_cases hio : i < d.capacity - d.head
              · rw [SakRs.getD_append_left _ _ _
                  (by simp only [List.length_append, List.length_drop,
                    List.length_take]; omega)]
                rw [SakRs.getD_append_left _ _ _ (by rw [hrotlen]; omega)]
                rw [SakRs.getD_drop _ _ _
                  (by simp only [List.length_take]; omega)]
                rw [SakRs.getD_take _ _ _ (by omega) (by omega)]
                rw [Nat.mod_eq_of_lt (by omega)]
                congr 1 <;> omega
              · rw [SakRs.getD_append_left _ _ _
                  (by simp only [List.length_append, List.length_drop,
                    List.length_take]; omega)]
                rw [SakRs.getD_append_right _ _ _ (by rw [hrotlen]; omega), hrotlen]
                rw [SakRs.getD_take _ _ _ (by omega)
                  (by simp only [List.length_take]; omega)]
                rw [SakRs.getD_take _ _ _ (by omega) (by omega)]
                rw [SakRs.mod_two_cases d.capacity (d.head + i) (by omega),
                  if_neg (by omega)]
                congr 1 <;> omega

theorem make_contiguous_slice_eq (d : InplaceDeque α) (hwf : WF d) :
    make_contiguous_slice d = toList d := by
  obtain ⟨ht, hl, hc, hcont, hwf2⟩ := make_contiguous_spec d hwf
  have h2 : (make_contiguous d).len ≤ (make_contiguous d).capacity := hwf2.2
  simp only [make_contiguous_slice]
  rw [contiguous_slice_eq_toList (make_contiguous d) (by omega), ht]

end InplaceDeque

/-- **C9**: for every well-formed ring deque, the two `as_slices` parts
concatenated, a full forward iteration, and the slice returned by
`make_contiguous` all yield the same logical sequence; `make_contiguous` never
changes the logical sequence; and a second `make_contiguous` immediately after
a first performs no state change at all (the first call always leaves the
deque contiguous, so the second returns via the early `is_contiguous` exit). -/
theorem inplaceDeque_slices_iteration_agree (α : Type) [Inhabited α]
    (d : InplaceDeque α) (hwf : InplaceDeque.WF d) :
    (InplaceDeque.as_slices d).1 ++ (InplaceDeque.as_slices d).2
      = InplaceDeque.toList d ∧
    InplaceDeque.iter_list d = InplaceDeque.toList d ∧
    InplaceDeque.make_contiguous_slice d = InplaceDeque.toList d ∧
    InplaceDeque.toList (InplaceDeque.make_contiguous d)
      = InplaceDeque.toList d ∧
    InplaceDeque.make_contiguous (InplaceDeque.make_contiguous d)
      = InplaceDeque.make_contiguous d := by
  obtain ⟨ht, hl, hc, hcont, hwf2⟩ := InplaceDeque.make_contiguous_spec d hwf
  refine ⟨InplaceDeque.as_slices_concat d hwf, ?_, ?_, ht, ?_⟩
  · simp only [InplaceDeque.iter_list]
    exact InplaceDeque.as_slices_concat d hwf
  · exact InplaceDeque.make_contiguous_slice_eq d hwf
  · exact InplaceDeque.make_contiguous_of_contiguous _ hcont

/-- Witness for C9 at a wrapped deque: buffer `[30,40,99,10,20]`, head 3,
length 4 (the stale slot holds 99); the logical sequence is `[10,20,30,40]`. -/
theorem inplaceDeque_slices_iteration_agree_witness :
    InplaceDeque.WF (⟨[30, 40, 99, 10, 20], 3, 4⟩ : InplaceDeque ℤ) ∧
    InplaceDeque.make_contiguous_slice
      (⟨[30, 40, 99, 10, 20], 3, 4⟩ : InplaceDeque ℤ) = [10, 20, 30, 40] ∧
    InplaceDeque.iter_list (⟨[30, 40, 99, 10, 20], 3, 4⟩ : InplaceDeque ℤ)
      = [10, 20, 30, 40] := by
  have h := inplaceDeque_slices_iteration_agree ℤ ⟨[30, 40, 99, 10, 20], 3, 4⟩
    ⟨Or.inl (by decide), by decide⟩
  refine ⟨⟨Or.inl (by decide), by decide⟩, ?_, ?_⟩
  · rw [h.2.2.1]
    decide
  · rw [h.2.1]
    decide

